import Mathlib
set_option maxRecDepth 40000

/-!
Verification of the `update_examples.py` migration engine (DIG-Network/gun.rs).

The script rewrites Rust example/test sources so that `Gun` constructor calls
receive a generated BLS key pair.  We embed the program shallowly: file text is
`List Char`; each regex pass of `update_file` becomes an explicit scanner whose
matcher mirrors the Python regex (the quantifiers in the patterns used are
maximal-munch deterministic, since every `\s+`/`\s*`/`\w+` is followed by a
literal outside its character class).  Character classes model Python's ASCII
behaviour, which covers the source corpus.
-/

namespace UpdateExamples

/-- Python `\s` on ASCII text. -/
def isPySpace (c : Char) : Bool :=
  c == ' ' || c == '\t' || c == '\n' || c == '\r' || c == '\x0b' || c == '\x0c'

/-- Python `\w` on ASCII text. -/
def isWordChar (c : Char) : Bool :=
  c.isAlpha || c.isDigit || c == '_'

/-- Literal `Gun::new()` (the guard substring checked at line 30 of the script). -/
def gunNewCallLit : List Char := ("Gun::new()").toList

/-- Literal tail of the bare-constructor pattern, `Gun::new\(\);`. -/
def gunNewSemiLit : List Char := ("Gun::new();").toList

/-- Literal tail of the Arc-wrapped pattern, `Gun::new\(\)\);`. -/
def gunNewArcTailLit : List Char := ("Gun::new());").toList

/-- Guard substring for the import augmenter. -/
def useGunLit : List Char := ("use gun::").toList

/-- Substring whose presence suppresses the import insertion. -/
def chiaMarkLit : List Char := ("use chia_bls::").toList

/-- Text inserted after the last `use …;` statement. -/
def chiaInsLit : List Char := ("\nuse chia_bls::\x7bSecretKey, PublicKey\x7d;").toList

/-- The full key-pair import line. -/
def chiaImportLineLit : List Char := ("use chia_bls::\x7bSecretKey, PublicKey\x7d;").toList

/-- Guard substring for the options rewriter (also the literal head of its regex). -/
def withOptsLit : List Char := ("Gun::with_options(").toList

/-- Substring looked for in the five-line lookback window. -/
def fromSeedLit : List Char := ("SecretKey::from_seed").toList

/-- Comment line inserted by the no-argument rewriter. -/
def commentLit : List Char := ("// Generate BLS key pair").toList

/-- Secret-key generation statement inserted by the no-argument rewriter. -/
def skStmtLit : List Char := ("let secret_key = SecretKey::from_seed(&[0u8; 32]);").toList

/-- Public-key derivation statement inserted by the no-argument rewriter. -/
def pkStmtLit : List Char := ("let public_key = secret_key.public_key();").toList

/-- Rewritten bare constructor call. -/
def newCallLit : List Char := ("Gun::new(secret_key, public_key);").toList

/-- Rewritten constructor call inside the `Arc::new(…)` wrapper. -/
def arcNewCallLit : List Char := ("Gun::new(secret_key, public_key));").toList

def litLet : List Char := ("let").toList
def litGunWord : List Char := ("gun").toList
def litEq : List Char := ("=").toList
def litArcNew : List Char := ("Arc::new(").toList
def litUse : List Char := ("use ").toList

/-- Python's `s in l` substring test. -/
def isSub (s : List Char) : List Char → Bool
  | [] => s.isEmpty
  | c :: cs => s.isPrefixOf (c :: cs) || isSub s cs

/-- Match a literal at the head of the text, returning the remainder. -/
def litM (p l : List Char) : Option (List Char) :=
  if p.isPrefixOf l then some (l.drop p.length) else none

/-- Greedy `+` over a character class followed by a literal outside the class:
maximal munch, failing on the empty run. -/
def manyOne (p : Char → Bool) (l : List Char) : Option (List Char × List Char) :=
  if (l.takeWhile p).isEmpty then none else some (l.takeWhile p, l.dropWhile p)

/-- Greedy `*` over a character class (maximal munch, empty run allowed). -/
def manyAny (p : Char → Bool) (l : List Char) : List Char × List Char :=
  (l.takeWhile p, l.dropWhile p)

/-- Attempt of the pattern `(\s+)(let\s+gun\s*=\s*)Gun::new\(\);` at the head of
the text.  Returns the two captured groups and the remainder. -/
def matchNewAt (l : List Char) : Option (List Char × List Char × List Char) :=
  match manyOne isPySpace l with
  | none => none
  | some (g1, r1) =>
    match litM litLet r1 with
    | none => none
    | some r2 =>
      match manyOne isPySpace r2 with
      | none => none
      | some (s1, r3) =>
        match litM litGunWord r3 with
        | none => none
        | some r4 =>
          let p5 := manyAny isPySpace r4
          match litM litEq p5.2 with
          | none => none
          | some r6 =>
            let p7 := manyAny isPySpace r6
            match litM gunNewSemiLit p7.2 with
            | none => none
            | some r8 =>
              some (g1, litLet ++ s1 ++ litGunWord ++ p5.1 ++ litEq ++ p7.1, r8)

/-- Attempt of the pattern `(\s+)(let\s+\w+\s*=\s*Arc::new\()Gun::new\(\)\);`
at the head of the text. -/
def matchArcAt (l : List Char) : Option (List Char × List Char × List Char) :=
  match manyOne isPySpace l with
  | none => none
  | some (g1, r1) =>
    match litM litLet r1 with
    | none => none
    | some r2 =>
      match manyOne isPySpace r2 with
      | none => none
      | some (s1, r3) =>
        match manyOne isWordChar r3 with
        | none => none
        | some (w, r4) =>
          let p5 := manyAny isPySpace r4
          match litM litEq p5.2 with
          | none => none
          | some r6 =>
            let p7 := manyAny isPySpace r6
            match litM litArcNew p7.2 with
            | none => none
            | some r8 =>
              match litM gunNewArcTailLit r8 with
              | none => none
              | some r9 =>
                some (g1, litLet ++ s1 ++ w ++ p5.1 ++ litEq ++ p7.1 ++ litArcNew, r9)

/-- Replacement template of the bare-constructor substitution
(`\1` is `g1`, `\2` is `g2`). -/
def replNew (g1 g2 : List Char) : List Char :=
  g1 ++ commentLit ++ '\n' :: g1 ++ skStmtLit ++ '\n' :: g1 ++ pkStmtLit ++
    '\n' :: g1 ++ g2 ++ newCallLit

/-- Replacement template of the Arc-wrapped substitution. -/
def replArc (g1 g2 : List Char) : List Char :=
  g1 ++ commentLit ++ '\n' :: g1 ++ skStmtLit ++ '\n' :: g1 ++ pkStmtLit ++
    '\n' :: g1 ++ g2 ++ arcNewCallLit

/-- Matcher for the generic substitution scanner: replacement text plus rest. -/
def mNew (l : List Char) : Option (List Char × List Char) :=
  match matchNewAt l with
  | some (g1, g2, r) => some (replNew g1 g2, r)
  | none => none

def mArc (l : List Char) : Option (List Char × List Char) :=
  match matchArcAt l with
  | some (g1, g2, r) => some (replArc g1 g2, r)
  | none => none

/-- `re.sub`-style left-to-right scanner over the text, fuelled version.
At each position the matcher is attempted; on success its replacement is
emitted and scanning resumes after the match (non-overlapping), otherwise
one character is copied. -/
def scanF (m : List Char → Option (List Char × List Char)) : Nat → List Char → List Char
  | _, [] => []
  | 0, l => l
  | f + 1, c :: cs =>
    match m (c :: cs) with
    | some (rep, r) => rep ++ scanF m f r
    | none => c :: scanF m f cs

/-- `re.sub` of a matcher over a whole text. -/
def scanAll (m : List Char → Option (List Char × List Char)) (l : List Char) : List Char :=
  scanF m l.length l

/-- `re.sub(pattern1, replacement, content)` of line 34 of the script. -/
def subNew (l : List Char) : List Char := scanAll mNew l

/-- `re.sub(pattern2, replacement2, content)` of line 42 of the script. -/
def subArc (l : List Char) : List Char := scanAll mArc l

/-- Matcher of Python `str.replace`: the literal `pat` replaced by `rep`. -/
def mRep (pat rep : List Char) (l : List Char) : Option (List Char × List Char) :=
  if pat.isEmpty then none
  else if pat.isPrefixOf l then some (rep, l.drop pat.length) else none

/-- Python `line.replace(pat, rep)` (left-to-right, non-overlapping, all
occurrences); the script only calls it with a nonempty pattern. -/
def strReplace (l pat rep : List Char) : List Char := scanAll (mRep pat rep) l

/-- Attempt of `Gun::with_options\((\w+)\)` at the head of a line, returning
the captured variable name. -/
def tryWithOptsAt (l : List Char) : Option (List Char) :=
  match litM withOptsLit l with
  | none => none
  | some r =>
    match manyOne isWordChar r with
    | none => none
    | some (w, r2) =>
      match r2 with
      | ')' :: _ => some w
      | _ => none

/-- `re.search(r'Gun::with_options\((\w+)\)', line)`: leftmost match. -/
def searchWithOptsVar : List Char → Option (List Char)
  | [] => none
  | c :: cs =>
    match tryWithOptsAt (c :: cs) with
    | some w => some w
    | none => searchWithOptsVar cs

/-- Python `'\n'.join`. -/
def joinNL : List (List Char) → List Char
  | [] => []
  | [a] => a
  | a :: b :: t => a ++ '\n' :: joinNL (b :: t)

/-- Python `content.split('\n')`. -/
def splitNL : List Char → List (List Char)
  | [] => [[]]
  | c :: cs =>
    if c == '\n' then [] :: splitNL cs
    else
      match splitNL cs with
      | h :: t => (c :: h) :: t
      | [] => [[c]]

/-- Decimal rendering of the key counter. -/
def natChars (n : Nat) : List Char := (Nat.repr n).toList

/-- `' ' * indent`. -/
def indentStr (n : Nat) : List Char := List.replicate n ' '

/-- The element appended to `new_lines` before a rewritten call site:
`key_gen.rstrip()`, i.e. the secret-key line, an embedded newline, and the
public-key line. -/
def keyGenLines (k ind : Nat) : List Char :=
  indentStr ind ++ ("let secret_key").toList ++ natChars k ++
    (" = SecretKey::from_seed(&[").toList ++ natChars k ++ ("u8; 32]);").toList ++
    '\n' :: indentStr ind ++ ("let public_key").toList ++ natChars k ++
    (" = secret_key").toList ++ natChars k ++ (".public_key();").toList

/-- `f'Gun::with_options({options_var})'`. -/
def callPat (v : List Char) : List Char := withOptsLit ++ v ++ [')']

/-- `f'Gun::with_options(secret_key{k}, public_key{k}, {options_var})'`. -/
def callRep (k : Nat) (v : List Char) : List Char :=
  withOptsLit ++ ("secret_key").toList ++ natChars k ++ (", public_key").toList ++
    natChars k ++ (", ").toList ++ v ++ [')']

/-- `lines[max(0, i-5):i]`: the five-line lookback window into the original line
list. -/
def windowOf (orig : List (List Char)) (i : Nat) : List (List Char) :=
  (orig.drop (i - 5)).take (min i 5)

/-- The line scan of the options rewriter (lines 59–87 of the script).  `orig`
is the original line list (the lookback reads it, not the output being built);
the result carries the rebuilt lines, the `updated` flag and the final value of
`key_counter` (the counter is loop state in the script; returning it makes the
increment observable). -/
def optScan (orig : List (List Char)) : Nat → Nat → Bool → List (List Char) →
    List (List Char) × Bool × Nat
  | _, k, upd, [] => ([], upd, k)
  | i, k, upd, line :: rest =>
    if isSub withOptsLit line && !(isSub fromSeedLit (joinNL (windowOf orig i))) then
      match searchWithOptsVar line with
      | some v =>
        let ind := (line.takeWhile isPySpace).length
        let line2 := strReplace line (callPat v) (callRep k v)
        let r := optScan orig (i + 1) (k + 1) true rest
        (keyGenLines k ind :: line2 :: r.1, r.2)
      | none =>
        let r := optScan orig (i + 1) k upd rest
        (line :: r.1, r.2)
    else
      let r := optScan orig (i + 1) k upd rest
      (line :: r.1, r.2)

/-- Import augmenter (lines 17–27): `use [^;]+;` matched at the head of the
text, returning the match length.  `[^;]+` is greedy and `;` must follow, so a
match runs from `use ` to the first subsequent semicolon. -/
def matchUseAt (l : List Char) : Option Nat :=
  match litM litUse l with
  | none => none
  | some r =>
    match manyOne (fun c => !(c == ';')) r with
    | none => none
    | some (body, rest) =>
      match rest with
      | ';' :: _ => some (litUse.length + body.length + 1)
      | _ => none

/-- `re.finditer(use_pattern, content)`: fuelled scan returning the end offset
of the last match (matches are non-overlapping, scanning resumes after each). -/
def findUseLastF : Nat → List Char → Nat → Option Nat → Option Nat
  | 0, _, _, acc => acc
  | _ + 1, [], _, acc => acc
  | f + 1, c :: cs, pos, acc =>
    match matchUseAt (c :: cs) with
    | some len => findUseLastF f ((c :: cs).drop len) (pos + len) (some (pos + len))
    | none => findUseLastF f cs (pos + 1) acc

/-- `matches[-1].end()` of the `use [^;]+;` finditer, if any match exists. -/
def findLastUseEnd (l : List Char) : Option Nat := findUseLastF l.length l 0 none

/-- Lines 17–27 of `update_file`: insert the chia_bls import after the last
`use …;` statement when the file references `gun::` and lacks the import. -/
def augmentImports (content : List Char) : List Char × Bool :=
  if isSub useGunLit content then
    if isSub chiaMarkLit content then (content, false)
    else
      match findLastUseEnd content with
      | some e => (content.take e ++ chiaInsLit ++ content.drop e, true)
      | none => (content, false)
  else (content, false)

/-- Lines 29–45 of `update_file`: the no-argument constructor rewriter.  Both
substitutions run under the `'Gun::new()' in content` guard; the flag records
whether either changed the text. -/
def noArgPass (content : List Char) : List Char × Bool :=
  if isSub gunNewCallLit content then
    let c1 := subNew content
    let c2 := subArc c1
    (c2, !(c1 == content) || !(c2 == c1))
  else (content, false)

/-- Lines 47–90 of `update_file`: the options-argument rewriter.  `updPrev` is
the `updated` flag accumulated by the previous passes; the text is reassembled
from `new_lines` whenever the flag is set. -/
def optionsPass (content : List Char) (updPrev : Bool) : List Char × Bool :=
  if isSub withOptsLit content then
    let r := optScan (splitNL content) 0 1 updPrev (splitNL content)
    (if r.2.1 then joinNL r.1 else content, r.2.1)
  else (content, updPrev)

/-- `update_file` on a file's text: the three passes in order; the file is
rewritten only when the flag is set and the final text differs from the
original.  The first component is the resulting on-disk text, the second the
boolean returned to the caller. -/
def updateFile (content : List Char) : List Char × Bool :=
  let a := augmentImports content
  let b := noArgPass a.1
  let c := optionsPass b.1 (a.2 || b.2)
  if c.2 && !(c.1 == content) then (c.1, true) else (content, false)

/-- No occurrence of `s` crosses the boundary between `a` and `b`. -/
def Crossless (a b s : List Char) : Prop :=
  ∀ t y, s = t ++ y → t ≠ [] → y ≠ [] → ¬ (t <:+ a ∧ y <+: b)

/-! ### Counting substring occurrences (by start position) -/

/-- `s` occurs in `l` at position `i`. -/
def occAt (l s : List Char) (i : Nat) : Bool := s.isPrefixOf (l.drop i)

/-- Number of positions of `l` at which `s` occurs. -/
def countSub (l s : List Char) : Nat := (List.range (l.length + 1)).countP (occAt l s)

/-! ### Generic lemmas about the substitution scanner -/

/-- Every successful match consumes at least one character. -/
def Shrinking (m : List Char → Option (List Char × List Char)) : Prop :=
  ∀ l rep r, m l = some (rep, r) → r.length < l.length

/-- Characters that can occur in the second capture group of either
no-argument pattern. -/
def g2Char (c : Char) : Bool :=
  isPySpace c || isWordChar c || c == ':' || c == '=' || c == '('

/-- Shared 9-character prefix `Gun::new(` of both pattern tails. -/
def gunNewParenLit : List Char := ("Gun::new(").toList

/-- The statement rewritten by the bare pattern, with canonical spacing. -/
def bareStmtLit : List Char := ("let gun = Gun::new();").toList

/-- Second capture group at a canonical bare call site. -/
def g2NewCanon : List Char := ("let gun = ").toList

/-- Second capture group at a canonical Arc-wrapped call site with variable `v`. -/
def g2ArcCanon (v : List Char) : List Char :=
  ("let ").toList ++ v ++ (" = Arc::new(").toList

/-- The Arc statement with canonical spacing and bound variable `v`. -/
def arcStmtLit (v : List Char) : List Char :=
  ("let ").toList ++ v ++ (" = Arc::new(Gun::new());").toList

/-- A canonical bare call site embedded in a file. -/
def bareSite (A ind B : List Char) : List Char :=
  A ++ '\n' :: (ind ++ (bareStmtLit ++ B))

/-- The block that replaces a canonical bare call site. -/
def bareRepl (ind : List Char) : List Char := replNew ('\n' :: ind) g2NewCanon

/-- Tail of the canonical Arc statement after the bound variable. -/
def arcTailLit : List Char := (" = Arc::new(Gun::new());").toList

/-- Portion of the rewritten Arc statement between the variable and the call. -/
def arcMidLit : List Char := (" = Arc::new(").toList

/-- A canonical Arc-wrapped call site embedded in a file. -/
def arcSite (A ind v B : List Char) : List Char :=
  A ++ '\n' :: (ind ++ (("let ").toList ++ (v ++ (arcTailLit ++ B))))

/-- The block that replaces a canonical Arc call site. -/
def arcRepl (ind v : List Char) : List Char := replArc ('\n' :: ind) (g2ArcCanon v)

/-- The needle counted for "exactly one public-key derivation line". -/
def pkCallLit : List Char := ("secret_key.public_key();").toList

/-! ### Claim C1 -/

def c1A : List Char :=
  ("use gun::Gun;\nuse chia_bls::\x7bSecretKey, PublicKey\x7d;\n\nfn main() \x7b").toList

def c1Ind : List Char := ("    ").toList

def c1B : List Char := ("\n\x7d\n").toList

def c1Input : List Char := bareSite c1A c1Ind c1B

/-- Secret-key generation line with the counterexample's four-space indent. -/
def skLineLit : List Char :=
  ("    let secret_key = SecretKey::from_seed(&[0u8; 32]);").toList

/-- Public-key derivation line with the counterexample's four-space indent. -/
def pkLineLit : List Char :=
  ("    let public_key = secret_key.public_key();").toList

def c3V : List Char := ("db").toList

/-! ### Claim C6 -/

def c6Input : List Char := ("fn f() \x7b\n    let db = Gun::new();\n\x7d").toList

def c4Input : List Char := ("fn main() \x7b let x = 1; \x7d\n").toList

def c5Input : List Char :=
  ("use gun::Gun;\nuse chia_bls::\x7bSecretKey, PublicKey\x7d;\nuse gun::more;\n").toList

def c8Input : List Char := ("use gun::Gun").toList

/-- The options variable name captured at a canonical call site. -/
def optsVarLit : List Char := ("options").toList

/-- The concrete call-plus-await text of a canonical options call site. -/
def optsCallAwaitLit : List Char := ("Gun::with_options(options).await").toList

/-- Text of a canonical options call site after the options variable. -/
def optsTail1 : List Char := ("options).await").toList

/-! ### A canonical options call line -/

/-- A line holding a canonical `Gun::with_options(options).await` call. -/
def optLine (a b : List Char) : List Char := a ++ (withOptsLit ++ (optsTail1 ++ b))

/-- The same line after the rewrite with counter value `k`. -/
def optLineDone (k : Nat) (a b : List Char) : List Char :=
  a ++ (callRep k optsVarLit ++ ((".await").toList ++ b))

/-! ### Concrete inputs for the options-rewriter claims -/

/-- Context lines for the C2 witness file. -/
def c2P : List (List Char) :=
  [("use gun::Gun;").toList, ("").toList, ("async fn run() \x7b").toList]

/-- Head of the first call line in the C2 witness. -/
def c2A1 : List Char := ("    let db1 = ").toList

/-- Tail of the first call line in the C2 witness. -/
def c2B1 : List Char := (".unwrap();").toList

/-- Head of the second call line in the C2 witness. -/
def c2A2 : List Char := ("    let db2 = ").toList

/-- Tail of the second call line in the C2 witness. -/
def c2B2 : List Char := (";").toList

/-- Trailing lines for the C2 witness file. -/
def c2S : List (List Char) := [("\x7d").toList]

/-- A pre-existing key-generation line (contains `SecretKey::from_seed`). -/
def c7Seed : List Char :=
  ("    let secret_key1 = SecretKey::from_seed(&[1u8; 32]);").toList

/-- Head of the call line used in the C7/C9 witnesses. -/
def c7A : List Char := ("    let db = ").toList

/-- Tail of the call line used in the C7/C9 witnesses. -/
def c7B : List Char := (";").toList

/-- Five innocuous lines separating the seed line from the call in the C9 witness. -/
def c9Q5 : List (List Char) :=
  [("").toList, ("    // a").toList, ("").toList, ("    // b").toList, ("").toList]

/-- Four innocuous lines, putting the seed line inside the lookback window. -/
def c9Q4 : List (List Char) :=
  [("").toList, ("    // a").toList, ("").toList, ("    // b").toList]

/-- Context line for the C10 witness. -/
def c10P : List (List Char) := [("fn demo() \x7b").toList]

/-- A call line whose argument is a call expression, not a bare identifier. -/
def c10L : List Char :=
  ("    let db = Gun::with_options(make_options()).await?;").toList

/-- Trailing line for the C10 witness. -/
def c10S : List (List Char) := [("\x7d").toList]

/-! ### Basic bridges between the executable tests and propositional prefixes -/

theorem isPrefixOf_eq_true {s l : List Char} : s.isPrefixOf l = true ↔ s <+: l :=
  List.isPrefixOf_iff_prefix

theorem isSub_eq_true {s l : List Char} : isSub s l = true ↔ s <:+: l := by
  induction l with
  | nil =>
    simp [isSub, List.isEmpty_iff]
  | cons c cs ih =>
    simp [isSub, isPrefixOf_eq_true, ih, List.infix_cons_iff]

theorem isSub_eq_false {s l : List Char} : isSub s l = false ↔ ¬ s <:+: l := by
  rw [← isSub_eq_true]
  cases isSub s l <;> simp

theorem infix_of_prefix_drop {s l : List Char} {i : Nat} (h : s <+: l.drop i) :
    s <:+: l :=
  List.infix_iff_prefix_suffix.mpr ⟨l.drop i, h, List.drop_suffix i l⟩

theorem prefix_head_eq {s t : List Char} (h : t <+: s) (ht : t ≠ []) :
    s.head? = t.head? := by
  rcases h with ⟨w, rfl⟩
  cases t with
  | nil => exact absurd rfl ht
  | cons c cs => rfl

theorem suffix_head_mem {a t : List Char} {c : Char} (h : t <:+ a) (hc : t.head? = some c) :
    c ∈ a := by
  rcases h with ⟨w, rfl⟩
  cases t with
  | nil => simp at hc
  | cons d ds => cases hc; simp

/-- Decomposition of an infix occurrence in an append: it lies in the left part,
in the right part, or crosses the boundary, splitting as a nonempty suffix of
the left part followed by a nonempty prefix of the right part. -/
theorem infix_append_cases {s a b : List Char} (h : s <:+: a ++ b) :
    s <:+: a ∨ s <:+: b ∨
      ∃ t y, s = t ++ y ∧ t ≠ [] ∧ y ≠ [] ∧ t <:+ a ∧ y <+: b := by
  rcases h with ⟨u, v, huv⟩
  rw [List.append_assoc] at huv
  rcases List.append_eq_append_iff.mp huv with ⟨a', ha', hsv⟩ | ⟨c', hc', hb⟩
  · rcases List.append_eq_append_iff.mp hsv with ⟨x, hx, hv⟩ | ⟨y, hy, hbv⟩
    · exact Or.inl ⟨u, x, by rw [ha', hx, List.append_assoc]⟩
    · rcases eq_or_ne a' [] with rfl | ha'ne
      · refine Or.inr (Or.inl ?_)
        refine ⟨[], v, ?_⟩
        simp at hy
        simp [hbv, hy]
      · rcases eq_or_ne y [] with rfl | hyne
        · refine Or.inl ?_
          refine ⟨u, [], ?_⟩
          simp at hy ⊢
          rw [ha', hy]
        · exact Or.inr (Or.inr ⟨a', y, hy, ha'ne, hyne, ⟨u, ha'.symm⟩, ⟨v, hbv.symm⟩⟩)
  · exact Or.inr (Or.inl ⟨c', v, by rw [hb, List.append_assoc]⟩)

theorem crossless_of_bHead {a b s : List Char} {c : Char}
    (hb : b.head? = some c) (hc : c ∉ s) : Crossless a b s := by
  intro t y hsplit ht hy ⟨_, hyb⟩
  have hhy : y.head? = b.head? := (prefix_head_eq hyb hy).symm
  apply hc
  rw [hsplit]
  cases y with
  | nil => exact absurd rfl hy
  | cons d ds =>
    rw [hb] at hhy
    cases hhy
    simp

theorem crossless_of_sHead {a b s : List Char} {c : Char}
    (hs : s.head? = some c) (hc : c ∉ a) : Crossless a b s := by
  intro t y hsplit ht hy ⟨hta, _⟩
  have hth : s.head? = t.head? := prefix_head_eq ⟨y, hsplit.symm⟩ ht
  apply hc
  exact suffix_head_mem hta (by rw [← hth, hs])

theorem suffix_of_append_right {t x y : List Char} (h : t <:+ x ++ y)
    (hlen : t.length ≤ y.length) : t <:+ y := by
  rcases h with ⟨w, hw⟩
  have h2 : w ++ t = x ++ y := hw
  have h3 : t = ((x ++ y).drop ((x ++ y).length - t.length)) := by
    rw [← h2]
    simp
  rw [h3]
  have h4 : (x ++ y).length - t.length = x.length + (y.length - t.length) := by
    simp [List.length_append]
    omega
  rw [h4, List.drop_append]
  exact List.drop_suffix _ y

theorem suffix_eq_drop {t a : List Char} (h : t <:+ a) :
    t = a.drop (a.length - t.length) := List.suffix_iff_eq_drop.mp h

theorem crossless_of_tail {a b s x y0 : List Char}
    (hxy : a = x ++ y0) (hlen : s.length ≤ y0.length + 1)
    (hchk : ∀ n, n < s.length → 0 < n → n ≤ y0.length →
      ¬ ((y0.drop (y0.length - n)) <+: s)) : Crossless a b s := by
  intro t y hsplit ht hy ⟨hta, _⟩
  have htlen : t.length < s.length := by
    rw [hsplit, List.length_append]
    have : 0 < y.length := List.length_pos.mpr hy
    omega
  have hty0len : t.length ≤ y0.length := by omega
  have hty0 : t <:+ y0 := suffix_of_append_right (hxy ▸ hta) hty0len
  have hts : t <+: s := ⟨y, hsplit.symm⟩
  have h0 : 0 < t.length := List.length_pos.mpr ht
  have hc := hchk t.length htlen h0 hty0len
  rw [← suffix_eq_drop hty0] at hc
  exact hc hts

/-- An infix occurrence cannot exist in an append when it is in neither part and
no crossing is possible. -/
theorem not_infix_append {s a b : List Char} (ha : ¬ s <:+: a) (hb : ¬ s <:+: b)
    (hcr : Crossless a b s) : ¬ s <:+: a ++ b := by
  intro h
  rcases infix_append_cases h with h1 | h2 | ⟨t, y, hsplit, ht, hy, hta, hyb⟩
  · exact ha h1
  · exact hb h2
  · exact hcr t y hsplit ht hy ⟨hta, hyb⟩

theorem not_infix_of_forbidden {s l : List Char} {c : Char}
    (hc : c ∈ s) (hl : c ∉ l) : ¬ s <:+: l := fun h => hl (h.subset hc)

theorem not_infix_mono {s' s l : List Char} (hp : s' <+: s) (h : ¬ s' <:+: l) :
    ¬ s <:+: l := fun hs => h ((hp.isInfix).trans hs)

theorem countSub_eq_zero {l s : List Char} (h : ¬ s <:+: l) : countSub l s = 0 := by
  refine List.countP_eq_zero.mpr fun i _ => ?_
  simp only [occAt, Bool.not_eq_true]
  rw [← Bool.not_eq_true, isPrefixOf_eq_true]
  exact fun hp => h (infix_of_prefix_drop hp)

theorem prefix_of_prefix_append {s x b : List Char} (h : s <+: x ++ b)
    (hlen : s.length ≤ x.length) : s <+: x := by
  have h1 : s = (x ++ b).take s.length := List.prefix_iff_eq_take.mp h
  have h2 : (x ++ b).take s.length = x.take s.length := by
    rw [List.take_append_eq_append_take, Nat.sub_eq_zero_of_le hlen]
    simp
  rw [h1, h2]
  exact List.take_prefix _ _

theorem occAt_last {a s : List Char} (hs : s ≠ []) : occAt a s a.length = false := by
  simp only [occAt, List.drop_length]
  rw [← Bool.not_eq_true, isPrefixOf_eq_true]
  intro hp
  exact hs (List.prefix_nil.mp hp)

theorem countSub_split {a s : List Char} (hs : s ≠ []) :
    countSub a s = (List.range a.length).countP (occAt a s) := by
  unfold countSub
  rw [List.range_succ, List.countP_append]
  simp [occAt_last hs]

theorem countSub_append {a b s : List Char} (hs : s ≠ []) (hcr : Crossless a b s) :
    countSub (a ++ b) s = countSub a s + countSub b s := by
  rw [countSub_split (a := a ++ b) hs, countSub_split (a := a) hs,
    countSub_split (a := b) hs]
  rw [List.length_append, List.range_add, List.countP_append, List.countP_map]
  congr 1
  · apply List.countP_congr
    intro i hi
    rw [List.mem_range] at hi
    have hdrop : (a ++ b).drop i = a.drop i ++ b := by
      rw [List.drop_append_eq_append_drop, Nat.sub_eq_zero_of_le (le_of_lt hi)]
      simp
    simp only [occAt, hdrop]
    rcases hab : (s.isPrefixOf (a.drop i ++ b)) with _ | _
    · rcases haa : (s.isPrefixOf (a.drop i)) with _ | _
      · rfl
      · exfalso
        rw [← Bool.not_eq_true, isPrefixOf_eq_true] at hab
        rw [isPrefixOf_eq_true] at haa
        exact hab (haa.trans (List.prefix_append _ b))
    · rcases haa : (s.isPrefixOf (a.drop i)) with _ | _
      · exfalso
        rw [isPrefixOf_eq_true] at hab
        rw [← Bool.not_eq_true, isPrefixOf_eq_true] at haa
        rcases le_or_lt s.length (a.drop i).length with hle | hlt
        · exact haa (prefix_of_prefix_append hab hle)
        · rcases hab with ⟨w, hw⟩
          rcases List.append_eq_append_iff.mp hw with ⟨a', ha', _⟩ | ⟨c', hc', hb2⟩
          · have := congrArg List.length ha'
            simp at this hlt
            omega
          · have hcne : c' ≠ [] := by
              intro h0
              rw [h0, List.append_nil] at hc'
              rw [hc'] at hlt
              exact lt_irrefl _ hlt
            have htne : a.drop i ≠ [] := by
              intro h0
              have := congrArg List.length h0
              simp at this
              omega
            exact hcr (a.drop i) c' hc' htne hcne
              ⟨List.drop_suffix i a, ⟨w, hb2.symm⟩⟩
      · rfl
  · apply List.countP_congr
    intro j _
    simp only [Function.comp, occAt, List.drop_append]

/-- head-of-right-part variant packaged for reuse. -/
theorem countSub_append_bHead {a b s : List Char} {c : Char} (hs : s ≠ [])
    (hb : b.head? = some c) (hc : c ∉ s) :
    countSub (a ++ b) s = countSub a s + countSub b s :=
  countSub_append hs (crossless_of_bHead hb hc)

theorem countSub_append_sHead {a b s : List Char} {c : Char} (hs : s ≠ [])
    (h0 : s.head? = some c) (hc : c ∉ a) :
    countSub (a ++ b) s = countSub a s + countSub b s :=
  countSub_append hs (crossless_of_sHead h0 hc)

theorem scanF_fuel {m : List Char → Option (List Char × List Char)} (hm : Shrinking m) :
    ∀ n l f g, l.length ≤ n → l.length ≤ f → l.length ≤ g →
      scanF m f l = scanF m g l := by
  intro n
  induction n with
  | zero =>
    intro l f g h1 _ _
    have : l = [] := List.eq_nil_of_length_eq_zero (Nat.le_zero.mp h1)
    subst this
    cases f <;> cases g <;> rfl
  | succ n ih =>
    intro l f g h1 h2 h3
    cases l with
    | nil => cases f <;> cases g <;> rfl
    | cons c cs =>
      simp only [List.length_cons] at h1 h2 h3
      obtain ⟨f', rfl⟩ : ∃ f', f = f' + 1 := ⟨f - 1, by omega⟩
      obtain ⟨g', rfl⟩ : ∃ g', g = g' + 1 := ⟨g - 1, by omega⟩
      simp only [scanF]
      cases hmc : m (c :: cs) with
      | none =>
        show c :: scanF m f' cs = c :: scanF m g' cs
        rw [ih cs f' g' (by omega) (by omega) (by omega)]
      | some pr =>
        obtain ⟨rep, r⟩ := pr
        have hr := hm _ _ _ hmc
        simp only [List.length_cons] at hr
        show rep ++ scanF m f' r = rep ++ scanF m g' r
        rw [ih r f' g' (by omega) (by omega) (by omega)]

theorem scanAll_cons_none {m : List Char → Option (List Char × List Char)} {c : Char}
    {cs : List Char} (h : m (c :: cs) = none) :
    scanAll m (c :: cs) = c :: scanAll m cs := by
  unfold scanAll
  simp only [List.length_cons, scanF, h]

theorem scanAll_cons_some {m : List Char → Option (List Char × List Char)} {c : Char}
    {cs rep r : List Char} (hm : Shrinking m) (h : m (c :: cs) = some (rep, r)) :
    scanAll m (c :: cs) = rep ++ scanAll m r := by
  unfold scanAll
  simp only [List.length_cons, scanF, h]
  congr 1
  have hr := hm _ _ _ h
  simp only [List.length_cons] at hr
  exact scanF_fuel hm cs.length r cs.length r.length (by omega) (by omega) le_rfl

theorem scanAll_eq_self {m : List Char → Option (List Char × List Char)} {l : List Char}
    (h : ∀ i, m (l.drop i) = none) : scanAll m l = l := by
  induction l with
  | nil => rfl
  | cons c cs ih =>
    rw [scanAll_cons_none (h 0)]
    rw [ih fun i => by simpa using h (i + 1)]

theorem scanAll_append {m : List Char → Option (List Char × List Char)} {a b : List Char}
    (h : ∀ i, i < a.length → m ((a ++ b).drop i) = none) :
    scanAll m (a ++ b) = a ++ scanAll m b := by
  induction a with
  | nil => simp
  | cons c as ih =>
    have h0 : m (c :: (as ++ b)) = none := by simpa using h 0 (by simp)
    rw [List.cons_append, scanAll_cons_none h0]
    rw [ih fun i hi => by simpa using h (i + 1) (by simp; omega)]
    rfl

/-! ### Shape lemmas for the matchers -/

theorem manyOne_some {p : Char → Bool} {l s r : List Char}
    (h : manyOne p l = some (s, r)) :
    l = s ++ r ∧ s ≠ [] ∧ ∀ c ∈ s, p c = true := by
  unfold manyOne at h
  split at h
  · simp at h
  · rename_i hne
    rw [Option.some.injEq, Prod.mk.injEq] at h
    obtain ⟨h1, h2⟩ := h
    subst h1
    subst h2
    refine ⟨(List.takeWhile_append_dropWhile p l).symm, ?_,
      fun c hc => List.mem_takeWhile_imp hc⟩
    simpa [List.isEmpty_iff] using hne

theorem litM_some {p l r : List Char} (h : litM p l = some r) : l = p ++ r := by
  unfold litM at h
  split at h
  · rename_i hp
    rw [Option.some.injEq] at h
    rw [isPrefixOf_eq_true] at hp
    rcases hp with ⟨t, rfl⟩
    rw [← h, List.drop_left]
  · simp at h

theorem litM_self {p t : List Char} : litM p (p ++ t) = some t := by
  unfold litM
  rw [if_pos (isPrefixOf_eq_true.mpr (List.prefix_append p t))]
  rw [List.drop_left]

theorem manyAny_eq {p : Char → Bool} {l : List Char} :
    l = (manyAny p l).1 ++ (manyAny p l).2 :=
  (List.takeWhile_append_dropWhile p l).symm

theorem manyAny_mem {p : Char → Bool} {l : List Char} :
    ∀ c ∈ (manyAny p l).1, p c = true := fun _ hc => List.mem_takeWhile_imp hc

theorem g2Char_of_space {c : Char} (h : isPySpace c = true) : g2Char c = true := by
  simp [g2Char, h]

theorem g2Char_of_all {c : Char} {lst : List Char} (hall : lst.all g2Char = true)
    (hc : c ∈ lst) : g2Char c = true := List.all_eq_true.mp hall c hc

theorem matchNewAt_shape {l g1 g2 r : List Char} (h : matchNewAt l = some (g1, g2, r)) :
    l = g1 ++ g2 ++ gunNewSemiLit ++ r ∧ g1 ≠ [] ∧
      (∀ c ∈ g1, isPySpace c = true) ∧ ∀ c ∈ g2, g2Char c = true := by
  unfold matchNewAt at h
  cases h1 : manyOne isPySpace l with
  | none => simp [h1] at h
  | some pr1 =>
  obtain ⟨g1', r1⟩ := pr1
  simp only [h1] at h
  cases h2 : litM litLet r1 with
  | none => simp [h2] at h
  | some r2 =>
  simp only [h2] at h
  cases h3 : manyOne isPySpace r2 with
  | none => simp [h3] at h
  | some pr3 =>
  obtain ⟨s1, r3⟩ := pr3
  simp only [h3] at h
  cases h4 : litM litGunWord r3 with
  | none => simp [h4] at h
  | some r4 =>
  simp only [h4] at h
  cases h6 : litM litEq (manyAny isPySpace r4).2 with
  | none => simp [h6] at h
  | some r6 =>
  simp only [h6] at h
  cases h8 : litM gunNewSemiLit (manyAny isPySpace r6).2 with
  | none => simp [h8] at h
  | some r8 =>
  simp only [h8] at h
  simp only [Option.some.injEq, Prod.mk.injEq] at h
  obtain ⟨hg1, hg2, hr⟩ := h
  subst hg1
  subst hr
  obtain ⟨e1, hne1, hsp1⟩ := manyOne_some h1
  have e2 := litM_some h2
  obtain ⟨e3, _, hsp3⟩ := manyOne_some h3
  have e4 := litM_some h4
  have e5 : r4 = (manyAny isPySpace r4).1 ++ (manyAny isPySpace r4).2 := manyAny_eq
  have e6 := litM_some h6
  have e7 : r6 = (manyAny isPySpace r6).1 ++ (manyAny isPySpace r6).2 := manyAny_eq
  have e8 := litM_some h8
  refine ⟨?_, hne1, hsp1, ?_⟩
  · rw [e1, e2, e3, e4, e5, e6, e7, e8, ← hg2]
    simp [List.append_assoc]
  · intro c hc
    rw [← hg2] at hc
    simp only [List.mem_append] at hc
    rcases hc with ((((hc | hc) | hc) | hc) | hc) | hc
    · exact g2Char_of_all (by decide) hc
    · exact g2Char_of_space (hsp3 c hc)
    · exact g2Char_of_all (by decide) hc
    · exact g2Char_of_space (manyAny_mem c hc)
    · exact g2Char_of_all (by decide) hc
    · exact g2Char_of_space (manyAny_mem c hc)

theorem matchArcAt_shape {l g1 g2 r : List Char} (h : matchArcAt l = some (g1, g2, r)) :
    l = g1 ++ g2 ++ gunNewArcTailLit ++ r ∧ g1 ≠ [] ∧
      (∀ c ∈ g1, isPySpace c = true) ∧ ∀ c ∈ g2, g2Char c = true := by
  unfold matchArcAt at h
  cases h1 : manyOne isPySpace l with
  | none => simp [h1] at h
  | some pr1 =>
  obtain ⟨g1', r1⟩ := pr1
  simp only [h1] at h
  cases h2 : litM litLet r1 with
  | none => simp [h2] at h
  | some r2 =>
  simp only [h2] at h
  cases h3 : manyOne isPySpace r2 with
  | none => simp [h3] at h
  | some pr3 =>
  obtain ⟨s1, r3⟩ := pr3
  simp only [h3] at h
  cases h4 : manyOne isWordChar r3 with
  | none => simp [h4] at h
  | some pr4 =>
  obtain ⟨w, r4⟩ := pr4
  simp only [h4] at h
  cases h6 : litM litEq (manyAny isPySpace r4).2 with
  | none => simp [h6] at h
  | some r6 =>
  simp only [h6] at h
  cases h8 : litM litArcNew (manyAny isPySpace r6).2 with
  | none => simp [h8] at h
  | some r8 =>
  simp only [h8] at h
  cases h9 : litM gunNewArcTailLit r8 with
  | none => simp [h9] at h
  | some r9 =>
  simp only [h9] at h
  simp only [Option.some.injEq, Prod.mk.injEq] at h
  obtain ⟨hg1, hg2, hr⟩ := h
  subst hg1
  subst hr
  obtain ⟨e1, hne1, hsp1⟩ := manyOne_some h1
  have e2 := litM_some h2
  obtain ⟨e3, _, hsp3⟩ := manyOne_some h3
  obtain ⟨e4, _, hw4⟩ := manyOne_some h4
  have e5 : r4 = (manyAny isPySpace r4).1 ++ (manyAny isPySpace r4).2 := manyAny_eq
  have e6 := litM_some h6
  have e7 : r6 = (manyAny isPySpace r6).1 ++ (manyAny isPySpace r6).2 := manyAny_eq
  have e8 := litM_some h8
  have e9 := litM_some h9
  refine ⟨?_, hne1, hsp1, ?_⟩
  · rw [e1, e2, e3, e4, e5, e6, e7, e8, e9, ← hg2]
    simp [List.append_assoc]
  · intro c hc
    rw [← hg2] at hc
    simp only [List.mem_append] at hc
    rcases hc with (((((hc | hc) | hc) | hc) | hc) | hc) | hc
    · exact g2Char_of_all (by decide) hc
    · exact g2Char_of_space (hsp3 c hc)
    · simp [g2Char, hw4 c hc]
    · exact g2Char_of_space (manyAny_mem c hc)
    · exact g2Char_of_all (by decide) hc
    · exact g2Char_of_space (manyAny_mem c hc)
    · exact g2Char_of_all (by decide) hc

theorem mNew_shrinking : Shrinking mNew := by
  intro l rep r h
  unfold mNew at h
  cases hm : matchNewAt l with
  | none => rw [hm] at h; exact absurd h (by simp)
  | some tr =>
    obtain ⟨g1, g2, r'⟩ := tr
    rw [hm] at h
    simp only [Option.some.injEq, Prod.mk.injEq] at h
    obtain ⟨_, h2⟩ := h
    subst h2
    obtain ⟨hl, hg1, _, _⟩ := matchNewAt_shape hm
    rw [hl]
    have : 0 < g1.length := List.length_pos.mpr hg1
    simp [List.length_append]
    omega

theorem mArc_shrinking : Shrinking mArc := by
  intro l rep r h
  unfold mArc at h
  cases hm : matchArcAt l with
  | none => rw [hm] at h; exact absurd h (by simp)
  | some tr =>
    obtain ⟨g1, g2, r'⟩ := tr
    rw [hm] at h
    simp only [Option.some.injEq, Prod.mk.injEq] at h
    obtain ⟨_, h2⟩ := h
    subst h2
    obtain ⟨hl, hg1, _, _⟩ := matchArcAt_shape hm
    rw [hl]
    have : 0 < g1.length := List.length_pos.mpr hg1
    simp [List.length_append]
    omega

theorem list_getElem?_of_prefix {s t : List Char} {j : Nat} (h : s <+: t)
    (hj : j < s.length) : t[j]? = s[j]? := by
  rcases h with ⟨w, rfl⟩
  rw [List.getElem?_append, if_pos hj]

theorem mem_of_getElem?_some {α : Type} {l : List α} {j : Nat} {c : α}
    (h : l[j]? = some c) : c ∈ l := by
  rcases List.getElem?_eq_some.mp h with ⟨hj, he⟩
  exact he ▸ List.getElem_mem hj

/-- Neither no-argument pattern can match at a position strictly inside `A`
when `A` does not contain `Gun::new(` and its final character cannot belong to
either capture group. -/
theorem matchAt_none_inside {A rest tl : List Char} {i : Nat}
    {mt : List Char → Option (List Char × List Char × List Char)}
    (hshape : ∀ l g1 g2 r, mt l = some (g1, g2, r) →
      l = g1 ++ g2 ++ tl ++ r ∧ g1 ≠ [] ∧ (∀ c ∈ g1, isPySpace c = true) ∧
        ∀ c ∈ g2, g2Char c = true)
    (htl9 : gunNewParenLit <+: tl) (htlnl : ('\n' : Char) ∉ tl)
    (hi : i < A.length)
    (hlast : ∃ c, A.getLast? = some c ∧ g2Char c = false)
    (hA : ¬ gunNewParenLit <:+: A) :
    mt ((A ++ '\n' :: rest).drop i) = none := by
  cases hmt : mt ((A ++ '\n' :: rest).drop i) with
  | none => rfl
  | some tr =>
    exfalso
    obtain ⟨g1, g2, r⟩ := tr
    obtain ⟨hl, hg1ne, hg1sp, hg2c⟩ := hshape _ _ _ _ hmt
    obtain ⟨cl, hcl, hclg⟩ := hlast
    have hTA : ∀ j, j < A.length → (A ++ '\n' :: rest)[j]? = A[j]? := by
      intro j hj
      rw [List.getElem?_append, if_pos hj]
    have hTnl : (A ++ '\n' :: rest)[A.length]? = some '\n' := by
      rw [List.getElem?_append, if_neg (lt_irrefl _), Nat.sub_self]
      simp
    have hg12 : (g1 ++ g2) <+: (A ++ '\n' :: rest).drop i := by
      refine ⟨tl ++ r, ?_⟩
      rw [hl]
      simp [List.append_assoc]
    have htlq : tl <+: (A ++ '\n' :: rest).drop (i + (g1 ++ g2).length) := by
      have hd : (A ++ '\n' :: rest).drop (i + (g1 ++ g2).length) =
          ((A ++ '\n' :: rest).drop i).drop (g1 ++ g2).length :=
        (List.drop_drop _ _ _).symm
      rw [hd, hl]
      have hassoc : g1 ++ g2 ++ tl ++ r = (g1 ++ g2) ++ (tl ++ r) := by
        simp [List.append_assoc]
      rw [hassoc, List.drop_left]
      exact ⟨r, rfl⟩
    rcases le_or_lt A.length (i + (g1 ++ g2).length) with hqA | hqA
    · -- the final character of `A` falls inside the two capture groups
      have hj : A.length - 1 - i < (g1 ++ g2).length := by omega
      have hchar : (g1 ++ g2)[A.length - 1 - i]? = some cl := by
        rw [← list_getElem?_of_prefix hg12 hj]
        rw [List.getElem?_drop]
        have hidx : i + (A.length - 1 - i) = A.length - 1 := by omega
        rw [hidx, hTA _ (by omega)]
        rw [← List.getLast?_eq_getElem?]
        exact hcl
      have hmem := mem_of_getElem?_some hchar
      rcases List.mem_append.mp hmem with hm | hm
      · rw [g2Char_of_space (hg1sp cl hm)] at hclg
        exact Bool.true_eq_false.mp hclg
      · rw [hg2c cl hm] at hclg
        exact Bool.true_eq_false.mp hclg
    · rcases le_or_lt (i + (g1 ++ g2).length + tl.length) A.length with hfit | hfit
      · -- `Gun::new(` would occur inside `A`
        apply hA
        have hdq : (A ++ '\n' :: rest).drop (i + (g1 ++ g2).length) =
            A.drop (i + (g1 ++ g2).length) ++ '\n' :: rest := by
          rw [List.drop_append_eq_append_drop, Nat.sub_eq_zero_of_le (le_of_lt hqA)]
          rfl
        rw [hdq] at htlq
        have htlA : tl <+: A.drop (i + (g1 ++ g2).length) := by
          apply prefix_of_prefix_append htlq
          rw [List.length_drop]
          omega
        exact infix_of_prefix_drop (htl9.trans htlA)
      · -- the boundary newline would fall inside the tail literal
        apply htlnl
        have hk : A.length - (i + (g1 ++ g2).length) < tl.length := by omega
        have hnl : tl[A.length - (i + (g1 ++ g2).length)]? = some '\n' := by
          rw [← list_getElem?_of_prefix htlq hk]
          rw [List.getElem?_drop]
          have hidx : i + (g1 ++ g2).length + (A.length - (i + (g1 ++ g2).length)) =
              A.length := by omega
          rw [hidx]
          exact hTnl
        exact mem_of_getElem?_some hnl

/-- Neither pattern can match anywhere in a text lacking the substring `p`
(with `p` a prefix of the pattern's tail literal). -/
theorem matchAt_none_absent {tl p L : List Char}
    {mt : List Char → Option (List Char × List Char × List Char)}
    (hshape : ∀ l g1 g2 r, mt l = some (g1, g2, r) →
      l = g1 ++ g2 ++ tl ++ r ∧ g1 ≠ [] ∧ (∀ c ∈ g1, isPySpace c = true) ∧
        ∀ c ∈ g2, g2Char c = true)
    (hp : p <+: tl) (h : ¬ p <:+: L) (i : Nat) : mt (L.drop i) = none := by
  cases hmt : mt (L.drop i) with
  | none => rfl
  | some tr =>
    exfalso
    obtain ⟨g1, g2, r⟩ := tr
    obtain ⟨hl, _, _, _⟩ := hshape _ _ _ _ hmt
    apply h
    have htl : tl <:+: L.drop i := by
      refine ⟨g1 ++ g2, r, ?_⟩
      rw [hl]
    exact (hp.isInfix.trans htl).trans (List.drop_suffix i L).isInfix

/-! ### Canonical matches of the no-argument patterns -/

theorem takeWhile_append_stop {p : Char → Bool} {a bs : List Char} {c : Char}
    (ha : ∀ x ∈ a, p x = true) (hc : p c = false) :
    (a ++ c :: bs).takeWhile p = a ∧ (a ++ c :: bs).dropWhile p = c :: bs := by
  induction a with
  | nil => simp [List.takeWhile_cons, List.dropWhile_cons, hc]
  | cons x xs ih =>
    have hx : p x = true := ha x (by simp)
    obtain ⟨ih1, ih2⟩ := ih fun y hy => ha y (by simp [hy])
    simp [List.takeWhile_cons, List.dropWhile_cons, hx, ih1, ih2]

theorem manyOne_append_stop {p : Char → Bool} {a bs : List Char} {c : Char}
    (hane : a ≠ []) (ha : ∀ x ∈ a, p x = true) (hc : p c = false) :
    manyOne p (a ++ c :: bs) = some (a, c :: bs) := by
  obtain ⟨h1, h2⟩ := takeWhile_append_stop ha hc
  unfold manyOne
  rw [h1, h2, if_neg (by simp [List.isEmpty_iff, hane])]

theorem manyAny_append_stop {p : Char → Bool} {a bs : List Char} {c : Char}
    (ha : ∀ x ∈ a, p x = true) (hc : p c = false) :
    manyAny p (a ++ c :: bs) = (a, c :: bs) := by
  obtain ⟨h1, h2⟩ := takeWhile_append_stop ha hc
  unfold manyAny
  rw [h1, h2]

theorem word_not_space {c : Char} (h : isWordChar c = true) : isPySpace c = false := by
  by_contra hsp
  rw [Bool.not_eq_false] at hsp
  simp only [isPySpace, Bool.or_eq_true, beq_iff_eq] at hsp
  rcases hsp with ((((rfl | rfl) | rfl) | rfl) | rfl) | rfl <;>
    exact absurd h (by decide)

theorem matchNewAt_canonical {ind B : List Char} (hind : ∀ c ∈ ind, c = ' ') :
    matchNewAt ('\n' :: ind ++ bareStmtLit ++ B) = some ('\n' :: ind, g2NewCanon, B) := by
  have hsp : ∀ x ∈ '\n' :: ind, isPySpace x = true := by
    intro x hx
    rcases List.mem_cons.mp hx with rfl | hx
    · decide
    · rw [hind x hx]; decide
  have h1 : manyOne isPySpace ('\n' :: ind ++ bareStmtLit ++ B) =
      some ('\n' :: ind, 'l' :: (("et gun = Gun::new();").toList ++ B)) := by
    have he : '\n' :: ind ++ bareStmtLit ++ B =
        ('\n' :: ind) ++ 'l' :: (("et gun = Gun::new();").toList ++ B) := by
      simp [bareStmtLit, List.append_assoc]
    rw [he]
    exact manyOne_append_stop (by simp) hsp (by decide)
  have h2 : litM litLet ('l' :: (("et gun = Gun::new();").toList ++ B)) =
      some (' ' :: (("gun = Gun::new();").toList ++ B)) :=
    litM_self (p := litLet) (t := ' ' :: (("gun = Gun::new();").toList ++ B))
  have h3 : manyOne isPySpace (' ' :: (("gun = Gun::new();").toList ++ B)) =
      some ([' '], 'g' :: (("un = Gun::new();").toList ++ B)) :=
    manyOne_append_stop (a := [' ']) (by simp) (by decide) (by decide)
  have h4 : litM litGunWord ('g' :: (("un = Gun::new();").toList ++ B)) =
      some (' ' :: (("= Gun::new();").toList ++ B)) :=
    litM_self (p := litGunWord) (t := ' ' :: (("= Gun::new();").toList ++ B))
  have h5 : manyAny isPySpace (' ' :: (("= Gun::new();").toList ++ B)) =
      ([' '], '=' :: ((" Gun::new();").toList ++ B)) :=
    manyAny_append_stop (a := [' ']) (by decide) (by decide)
  have h6 : litM litEq ('=' :: ((" Gun::new();").toList ++ B)) =
      some (' ' :: (("Gun::new();").toList ++ B)) :=
    litM_self (p := litEq) (t := ' ' :: (("Gun::new();").toList ++ B))
  have h7 : manyAny isPySpace (' ' :: (("Gun::new();").toList ++ B)) =
      ([' '], 'G' :: (("un::new();").toList ++ B)) :=
    manyAny_append_stop (a := [' ']) (by decide) (by decide)
  have h8 : litM gunNewSemiLit ('G' :: (("un::new();").toList ++ B)) = some B :=
    litM_self (p := gunNewSemiLit) (t := B)
  unfold matchNewAt
  rw [h1]
  simp only [h2, h3, h4, h5, h6, h7, h8]
  rfl

theorem matchArcAt_canonical {ind v B : List Char} (hind : ∀ c ∈ ind, c = ' ')
    (hv : v ≠ []) (hw : ∀ c ∈ v, isWordChar c = true) :
    matchArcAt ('\n' :: ind ++ arcStmtLit v ++ B) =
      some ('\n' :: ind, g2ArcCanon v, B) := by
  obtain ⟨vc, vt, rfl⟩ := List.exists_cons_of_ne_nil hv
  have hsp : ∀ x ∈ '\n' :: ind, isPySpace x = true := by
    intro x hx
    rcases List.mem_cons.mp hx with rfl | hx
    · decide
    · rw [hind x hx]; decide
  have hvc : isWordChar vc = true := hw vc (by simp)
  have h1 : manyOne isPySpace ('\n' :: ind ++ arcStmtLit (vc :: vt) ++ B) =
      some ('\n' :: ind,
        'l' :: (("et ").toList ++ (vc :: vt) ++ (" = Arc::new(Gun::new());").toList ++ B)) := by
    have he : '\n' :: ind ++ arcStmtLit (vc :: vt) ++ B =
        ('\n' :: ind) ++ 'l' ::
          (("et ").toList ++ (vc :: vt) ++ (" = Arc::new(Gun::new());").toList ++ B) := by
      simp [arcStmtLit, List.append_assoc]
    rw [he]
    exact manyOne_append_stop (by simp) hsp (by decide)
  have h2 : litM litLet
      ('l' :: (("et ").toList ++ (vc :: vt) ++ (" = Arc::new(Gun::new());").toList ++ B)) =
      some (' ' :: ((vc :: vt) ++ ((" = Arc::new(Gun::new());").toList ++ B))) := by
    have he : 'l' :: (("et ").toList ++ (vc :: vt) ++ (" = Arc::new(Gun::new());").toList ++ B) =
        litLet ++ (' ' :: ((vc :: vt) ++ ((" = Arc::new(Gun::new());").toList ++ B))) := by
      simp [litLet, List.append_assoc]
    rw [he, litM_self]
  have h3 : manyOne isPySpace (' ' :: ((vc :: vt) ++ ((" = Arc::new(Gun::new());").toList ++ B))) =
      some ([' '], vc :: (vt ++ ((" = Arc::new(Gun::new());").toList ++ B))) := by
    have he : ' ' :: ((vc :: vt) ++ ((" = Arc::new(Gun::new());").toList ++ B)) =
        [' '] ++ vc :: (vt ++ ((" = Arc::new(Gun::new());").toList ++ B)) := by
      simp
    rw [he]
    exact manyOne_append_stop (by simp) (by decide) (word_not_space hvc)
  have h4 : manyOne isWordChar (vc :: (vt ++ ((" = Arc::new(Gun::new());").toList ++ B))) =
      some (vc :: vt, ' ' :: (("= Arc::new(Gun::new());").toList ++ B)) := by
    have he : vc :: (vt ++ ((" = Arc::new(Gun::new());").toList ++ B)) =
        (vc :: vt) ++ ' ' :: (("= Arc::new(Gun::new());").toList ++ B) := by
      simp [List.append_assoc]
    rw [he]
    exact manyOne_append_stop (by simp) hw (by decide)
  have h5 : manyAny isPySpace (' ' :: (("= Arc::new(Gun::new());").toList ++ B)) =
      ([' '], '=' :: ((" Arc::new(Gun::new());").toList ++ B)) :=
    manyAny_append_stop (a := [' ']) (by decide) (by decide)
  have h6 : litM litEq ('=' :: ((" Arc::new(Gun::new());").toList ++ B)) =
      some (' ' :: (("Arc::new(Gun::new());").toList ++ B)) :=
    litM_self (p := litEq) (t := ' ' :: (("Arc::new(Gun::new());").toList ++ B))
  have h7 : manyAny isPySpace (' ' :: (("Arc::new(Gun::new());").toList ++ B)) =
      ([' '], 'A' :: (("rc::new(Gun::new());").toList ++ B)) :=
    manyAny_append_stop (a := [' ']) (by decide) (by decide)
  have h8 : litM litArcNew ('A' :: (("rc::new(Gun::new());").toList ++ B)) =
      some (('G' :: ("un::new());").toList) ++ B) := by
    have he : 'A' :: (("rc::new(Gun::new());").toList ++ B) =
        litArcNew ++ (('G' :: ("un::new());").toList) ++ B) := by
      simp [litArcNew, List.append_assoc]
    rw [he, litM_self]
  have h9 : litM gunNewArcTailLit (('G' :: ("un::new());").toList) ++ B) = some B :=
    litM_self (p := gunNewArcTailLit) (t := B)
  unfold matchArcAt
  rw [h1]
  simp only [h2, h3, h4, h5, h6, h7, h8, h9]
  have hg2 : litLet ++ [' '] ++ vc :: vt ++ [' '] ++ litEq ++ [' '] ++ litArcNew =
      g2ArcCanon (vc :: vt) := by
    have he1 : ("let ").toList = litLet ++ [' '] := rfl
    have he2 : (" = Arc::new(").toList = [' '] ++ litEq ++ [' '] ++ litArcNew := rfl
    rw [g2ArcCanon, he1, he2]
    simp [List.append_assoc]
  rw [hg2]

theorem suffix_getLast {t a : List Char} (h : t <:+ a) (ht : t ≠ []) :
    t.getLast? = a.getLast? := by
  rcases h with ⟨u, rfl⟩
  exact (List.getLast?_append_of_ne_nil u ht).symm

theorem mem_of_getLast?_some {l : List Char} {c : Char} (h : l.getLast? = some c) :
    c ∈ l := by
  rw [List.getLast?_eq_getElem?] at h
  exact mem_of_getElem?_some h

/-- Crossing is impossible when the left part ends in a character the needle
does not contain. -/
theorem crossless_of_aLast {a b s : List Char} {c : Char}
    (hla : a.getLast? = some c) (hc : c ∉ s) : Crossless a b s := by
  intro t y hsplit ht _ ⟨hta, _⟩
  apply hc
  rw [hsplit]
  have := suffix_getLast hta ht
  rw [hla] at this
  exact List.mem_append.mpr (Or.inl (mem_of_getLast?_some this))

theorem not_infix_append_cr {s a b : List Char} (ha : ¬ s <:+: a) (hb : ¬ s <:+: b)
    (hcr : Crossless a b s) : ¬ s <:+: a ++ b := not_infix_append ha hb hcr

theorem infix_iff_countSub {l s : List Char} (_hs : s ≠ []) :
    s <:+: l ↔ countSub l s ≠ 0 := by
  constructor
  · intro h
    rcases h with ⟨u, v, huv⟩
    have hocc : occAt l s u.length = true := by
      unfold occAt
      rw [isPrefixOf_eq_true]
      refine ⟨v, ?_⟩
      rw [← huv, List.append_assoc, List.drop_left]
    intro h0
    unfold countSub at h0
    rw [List.countP_eq_zero] at h0
    refine h0 u.length ?_ hocc
    rw [List.mem_range]
    have : u.length ≤ l.length := by
      rw [← huv]
      simp [List.length_append]
    omega
  · intro h
    by_contra hinf
    exact h (countSub_eq_zero hinf)

theorem not_infix_of_countSub_zero {l s : List Char} (hs : s ≠ [])
    (h : countSub l s = 0) : ¬ s <:+: l := fun hi => (infix_iff_countSub hs).mp hi h

theorem not_infix_of_nonword {v s : List Char} {c : Char}
    (hw : ∀ x ∈ v, isWordChar x = true) (hc : c ∈ s) (hcw : isWordChar c = false) :
    ¬ s <:+: v := by
  refine not_infix_of_forbidden hc fun hm => ?_
  rw [hw c hm] at hcw
  exact Bool.true_eq_false.mp hcw

/-- Crossing from an all-word-character region into text starting with a space
is impossible for a needle whose word-character prefixes are all followed by a
non-space character. -/
theorem crossless_word_space {v tailB s : List Char}
    (hw : ∀ c ∈ v, isWordChar c = true) (htail : tailB.head? = some ' ')
    (hcut : ∀ n, n < s.length → 0 < n → (∀ c ∈ s.take n, isWordChar c = true) →
      ¬ (s.drop n).head? = some ' ') :
    Crossless v tailB s := by
  intro t y hsplit ht hy ⟨htv, hyb⟩
  have htp : t <+: s := ⟨y, hsplit.symm⟩
  have hteq : t = s.take t.length := List.prefix_iff_eq_take.mp htp
  have hyeq : y = s.drop t.length := by
    have := congrArg (List.drop t.length) hsplit
    rw [List.drop_left] at this
    exact this.symm
  have hlen : t.length < s.length := by
    rw [hsplit, List.length_append]
    have := List.length_pos.mpr hy
    omega
  refine hcut t.length hlen (List.length_pos.mpr ht) ?_ ?_
  · intro c hc
    rw [← hteq] at hc
    exact hw c (htv.subset hc)
  · rw [← hyeq, ← prefix_head_eq hyb hy]
    exact htail

theorem mem_of_head?_some {l : List Char} {c : Char} (h : l.head? = some c) :
    c ∈ l := by
  cases l with
  | nil => simp at h
  | cons d ds => rw [List.head?_cons, Option.some.injEq] at h; simp [h]

theorem head_not_mem_nlind {ind : List Char} {c0 : Char}
    (hind : ∀ c ∈ ind, c = ' ') (h1 : c0 ≠ '\n') (h2 : c0 ≠ ' ') :
    c0 ∉ '\n' :: ind := by
  intro hm
  rcases List.mem_cons.mp hm with rfl | hm
  · exact h1 rfl
  · exact h2 (hind c0 hm)

theorem countSub_chain_sHead {ind rest s : List Char} {c0 : Char}
    (hs : s ≠ []) (hs0 : s.head? = some c0) (hnotin : c0 ∉ '\n' :: ind) :
    countSub (('\n' :: ind) ++ rest) s = countSub rest s := by
  rw [countSub_append hs (crossless_of_sHead hs0 hnotin),
    countSub_eq_zero (not_infix_of_forbidden (mem_of_head?_some hs0) hnotin)]
  omega

theorem countSub_chain_nlcons {X s : List Char} {c0 : Char}
    (hs : s ≠ []) (hs0 : s.head? = some c0) (hnlc : c0 ≠ '\n') :
    countSub ('\n' :: X) s = countSub X s := by
  have he : ('\n' :: X) = ['\n'] ++ X := rfl
  rw [he, countSub_append hs (crossless_of_sHead hs0 (by simp [hnlc])),
    countSub_eq_zero (not_infix_of_forbidden (mem_of_head?_some hs0) (by simp [hnlc]))]
  omega

theorem countSub_chain_seg {a rest s : List Char} {c0 : Char}
    (hs : s ≠ []) (hs0 : s.head? = some c0) (hnotin : c0 ∉ a) :
    countSub (a ++ rest) s = countSub rest s := by
  rw [countSub_append hs (crossless_of_sHead hs0 hnotin),
    countSub_eq_zero (not_infix_of_forbidden (mem_of_head?_some hs0) hnotin)]
  omega

theorem countSub_chain_lit {lit rest s : List Char} (hs : s ≠ [])
    (hnl : ('\n' : Char) ∉ s) (hhead : rest.head? = some '\n') :
    countSub (lit ++ rest) s = countSub lit s + countSub rest s :=
  countSub_append_bHead hs hhead hnl

/-! ### The no-argument pass on canonical call sites -/

theorem mNew_eq_none {l : List Char} (h : matchNewAt l = none) : mNew l = none := by
  unfold mNew
  rw [h]

theorem mArc_eq_none {l : List Char} (h : matchArcAt l = none) : mArc l = none := by
  unfold mArc
  rw [h]

theorem mNew_none_of_not_infix {L p : List Char} (hp : p <+: gunNewSemiLit)
    (h : ¬ p <:+: L) (i : Nat) : mNew (L.drop i) = none :=
  mNew_eq_none (matchAt_none_absent (fun _ _ _ _ hh => matchNewAt_shape hh) hp h i)

theorem mArc_none_of_not_infix {L p : List Char} (hp : p <+: gunNewArcTailLit)
    (h : ¬ p <:+: L) (i : Nat) : mArc (L.drop i) = none :=
  mArc_eq_none (matchAt_none_absent (fun _ _ _ _ hh => matchArcAt_shape hh) hp h i)

/-- `re.sub` of the bare pattern is the identity on texts without `Gun::new();`. -/
theorem subNew_noop {L : List Char} (h : ¬ gunNewSemiLit <:+: L) : subNew L = L :=
  scanAll_eq_self fun i => mNew_none_of_not_infix (List.prefix_refl _) h i

/-- `re.sub` of the Arc pattern is the identity on texts without `Gun::new()`. -/
theorem subArc_noop {L : List Char} (h : ¬ gunNewCallLit <:+: L) : subArc L = L :=
  scanAll_eq_self fun i => mArc_none_of_not_infix (by decide) h i

theorem subNew_bareSite {A ind B : List Char}
    (hind : ∀ c ∈ ind, c = ' ')
    (hlast : ∃ c, A.getLast? = some c ∧ g2Char c = false)
    (hA : ¬ gunNewParenLit <:+: A)
    (hB : ¬ gunNewParenLit <:+: B) :
    subNew (bareSite A ind B) = A ++ (bareRepl ind ++ B) := by
  unfold bareSite subNew
  rw [scanAll_append (fun i hi => mNew_eq_none
    (matchAt_none_inside (fun _ _ _ _ hh => matchNewAt_shape hh)
      (by decide) (by decide) hi hlast hA))]
  have hcan : matchNewAt ('\n' :: (ind ++ (bareStmtLit ++ B))) =
      some ('\n' :: ind, g2NewCanon, B) := by
    have he : '\n' :: (ind ++ (bareStmtLit ++ B)) = '\n' :: ind ++ bareStmtLit ++ B := by
      simp [List.append_assoc]
    rw [he]
    exact matchNewAt_canonical hind
  have hsome : mNew ('\n' :: (ind ++ (bareStmtLit ++ B))) =
      some (replNew ('\n' :: ind) g2NewCanon, B) := by
    unfold mNew
    rw [hcan]
  rw [scanAll_cons_some mNew_shrinking hsome]
  rw [scanAll_eq_self fun i =>
    mNew_none_of_not_infix (by decide : gunNewParenLit <+: gunNewSemiLit) hB i]
  rfl

theorem bareRepl_decomp {ind B : List Char} :
    bareRepl ind ++ B =
      ('\n' :: ind) ++ (commentLit ++ ('\n' :: (('\n' :: ind) ++ (skStmtLit ++
        ('\n' :: (('\n' :: ind) ++ (pkStmtLit ++
        ('\n' :: (('\n' :: ind) ++ (g2NewCanon ++ (newCallLit ++ B))))))))))) := by
  simp [bareRepl, replNew, List.append_assoc]

/-- Occurrence count of a newline-free needle in a rewritten bare call site:
occurrences come only from the surrounding text and the four inserted
fragments. -/
theorem countSub_bareOut {A ind B s : List Char} {c0 : Char}
    (hind : ∀ c ∈ ind, c = ' ')
    (hs0 : s.head? = some c0) (hnlc : c0 ≠ '\n') (hspc : c0 ≠ ' ')
    (hnl : ('\n' : Char) ∉ s)
    (hlen : s.length ≤ newCallLit.length + 1)
    (hchk : ∀ n, n < s.length → 0 < n → n ≤ newCallLit.length →
      ¬ ((newCallLit.drop (newCallLit.length - n)) <+: s)) :
    countSub (A ++ (bareRepl ind ++ B)) s =
      countSub A s + countSub commentLit s + countSub skStmtLit s +
        countSub pkStmtLit s + countSub (g2NewCanon ++ newCallLit) s + countSub B s := by
  have hs : s ≠ [] := by
    intro h0
    rw [h0] at hs0
    simp at hs0
  have hnin : c0 ∉ '\n' :: ind := head_not_mem_nlind hind hnlc hspc
  rw [bareRepl_decomp]
  rw [countSub_append_bHead hs (by rfl) hnl]
  rw [countSub_chain_sHead hs hs0 hnin]
  rw [countSub_chain_lit hs hnl (by rfl)]
  rw [countSub_chain_nlcons hs hs0 hnlc]
  rw [countSub_chain_sHead hs hs0 hnin]
  rw [countSub_chain_lit hs hnl (by rfl)]
  rw [countSub_chain_nlcons hs hs0 hnlc]
  rw [countSub_chain_sHead hs hs0 hnin]
  rw [countSub_chain_lit hs hnl (by rfl)]
  rw [countSub_chain_nlcons hs hs0 hnlc]
  rw [countSub_chain_sHead hs hs0 hnin]
  have hassoc : g2NewCanon ++ (newCallLit ++ B) = (g2NewCanon ++ newCallLit) ++ B :=
    (List.append_assoc _ _ _).symm
  rw [hassoc]
  rw [countSub_append hs (crossless_of_tail rfl hlen hchk)]
  omega

theorem not_infix_bareOut {A ind B s : List Char} {c0 : Char}
    (hind : ∀ c ∈ ind, c = ' ')
    (hs0 : s.head? = some c0) (hnlc : c0 ≠ '\n') (hspc : c0 ≠ ' ')
    (hnl : ('\n' : Char) ∉ s)
    (hlen : s.length ≤ newCallLit.length + 1)
    (hchk : ∀ n, n < s.length → 0 < n → n ≤ newCallLit.length →
      ¬ ((newCallLit.drop (newCallLit.length - n)) <+: s))
    (hA : countSub A s = 0) (hB : countSub B s = 0)
    (h1 : countSub commentLit s = 0) (h2 : countSub skStmtLit s = 0)
    (h3 : countSub pkStmtLit s = 0) (h4 : countSub (g2NewCanon ++ newCallLit) s = 0) :
    ¬ s <:+: A ++ (bareRepl ind ++ B) := by
  have hs : s ≠ [] := by
    intro h0
    rw [h0] at hs0
    simp at hs0
  apply not_infix_of_countSub_zero hs
  rw [countSub_bareOut hind hs0 hnlc hspc hnl hlen hchk, hA, hB, h1, h2, h3, h4]

theorem noArgPass_bareSite {A ind B : List Char}
    (hind : ∀ c ∈ ind, c = ' ')
    (hlast : ∃ c, A.getLast? = some c ∧ g2Char c = false)
    (hA : ¬ gunNewParenLit <:+: A)
    (hB : ¬ gunNewParenLit <:+: B) :
    noArgPass (bareSite A ind B) = (A ++ (bareRepl ind ++ B), true) := by
  have hguard : isSub gunNewCallLit (bareSite A ind B) = true := by
    rw [isSub_eq_true]
    have h1 : gunNewCallLit <:+: bareStmtLit := by decide
    have h2 : bareStmtLit <:+: bareSite A ind B := by
      refine ⟨A ++ '\n' :: ind, B, ?_⟩
      simp [bareSite, List.append_assoc]
    exact h1.trans h2
  have hnogun : ¬ gunNewCallLit <:+: A ++ (bareRepl ind ++ B) := by
    refine not_infix_bareOut hind
      (show gunNewCallLit.head? = some 'G' from by decide)
      (by decide) (by decide) (by decide) (by decide) (by decide)
      (countSub_eq_zero (not_infix_mono (by decide) hA))
      (countSub_eq_zero (not_infix_mono (by decide) hB))
      (by decide) (by decide) (by decide) (by decide)
  have hlens : (A ++ (bareRepl ind ++ B)).length ≠ (bareSite A ind B).length := by
    have e1 : commentLit.length = 24 := by decide
    have e2 : skStmtLit.length = 50 := by decide
    have e3 : pkStmtLit.length = 41 := by decide
    have e4 : g2NewCanon.length = 10 := by decide
    have e5 : newCallLit.length = 33 := by decide
    have e6 : bareStmtLit.length = 21 := by decide
    simp [bareSite, bareRepl, replNew, List.length_append, List.length_cons,
      e1, e2, e3, e4, e5, e6]
    omega
  have hneq : A ++ (bareRepl ind ++ B) ≠ bareSite A ind B := fun h => hlens (by rw [h])
  unfold noArgPass
  rw [hguard]
  simp only [if_true]
  rw [subNew_bareSite hind hlast hA hB, subArc_noop hnogun]
  simp [beq_eq_false_iff_ne.mpr hneq]

theorem arcSite_eq {A ind v B : List Char} :
    arcSite A ind v B = A ++ '\n' :: (ind ++ (arcStmtLit v ++ B)) := by
  simp [arcSite, arcStmtLit, arcTailLit, List.append_assoc]

theorem not_mem_ind {ind : List Char} {c0 : Char} (hind : ∀ c ∈ ind, c = ' ')
    (hspc : c0 ≠ ' ') : c0 ∉ ind := fun hm => hspc (hind c0 hm)

/-- Occurrence count of a needle across a canonical Arc call site. -/
theorem countSub_arcSite {A ind v B s : List Char} {c0 cw : Char}
    (hind : ∀ c ∈ ind, c = ' ')
    (hw : ∀ c ∈ v, isWordChar c = true)
    (hs0 : s.head? = some c0) (hnlc : c0 ≠ '\n') (hspc : c0 ≠ ' ')
    (hnl : ('\n' : Char) ∉ s)
    (hlet : c0 ∉ ("let ").toList)
    (hcw : cw ∈ s) (hcww : isWordChar cw = false)
    (hcut : ∀ n, n < s.length → 0 < n → (∀ c ∈ s.take n, isWordChar c = true) →
      ¬ (s.drop n).head? = some ' ')
    (hlenT : s.length ≤ arcTailLit.length + 1)
    (hchkT : ∀ n, n < s.length → 0 < n → n ≤ arcTailLit.length →
      ¬ ((arcTailLit.drop (arcTailLit.length - n)) <+: s)) :
    countSub (arcSite A ind v B) s =
      countSub A s + countSub arcTailLit s + countSub B s := by
  have hs : s ≠ [] := by
    intro h0
    rw [h0] at hs0
    simp at hs0
  unfold arcSite
  rw [countSub_append_bHead hs (by rfl) hnl]
  rw [countSub_chain_nlcons hs hs0 hnlc]
  rw [countSub_chain_seg hs hs0 (not_mem_ind hind hspc)]
  rw [countSub_chain_seg hs hs0 hlet]
  rw [countSub_append hs (crossless_word_space hw (by rfl) hcut)]
  rw [countSub_eq_zero (not_infix_of_nonword hw hcw hcww)]
  rw [countSub_append hs
    (crossless_of_tail (show arcTailLit = [] ++ arcTailLit from rfl) hlenT hchkT)]
  omega

theorem arcRepl_decomp {ind v B : List Char} :
    arcRepl ind v ++ B =
      ('\n' :: ind) ++ (commentLit ++ ('\n' :: (('\n' :: ind) ++ (skStmtLit ++
        ('\n' :: (('\n' :: ind) ++ (pkStmtLit ++
        ('\n' :: (('\n' :: ind) ++ (("let ").toList ++ (v ++ (arcMidLit ++
          (arcNewCallLit ++ B))))))))))))) := by
  simp [arcRepl, replArc, g2ArcCanon, arcMidLit, List.append_assoc]

/-- Occurrence count of a newline-free needle in a rewritten Arc call site. -/
theorem countSub_arcOut {A ind v B s : List Char} {c0 cw : Char}
    (hind : ∀ c ∈ ind, c = ' ')
    (hw : ∀ c ∈ v, isWordChar c = true)
    (hs0 : s.head? = some c0) (hnlc : c0 ≠ '\n') (hspc : c0 ≠ ' ')
    (hnl : ('\n' : Char) ∉ s)
    (hlet : c0 ∉ ("let ").toList)
    (hcw : cw ∈ s) (hcww : isWordChar cw = false)
    (hcut : ∀ n, n < s.length → 0 < n → (∀ c ∈ s.take n, isWordChar c = true) →
      ¬ (s.drop n).head? = some ' ')
    (hmid : c0 ∉ arcMidLit)
    (hlenT : s.length ≤ arcNewCallLit.length + 1)
    (hchkT : ∀ n, n < s.length → 0 < n → n ≤ arcNewCallLit.length →
      ¬ ((arcNewCallLit.drop (arcNewCallLit.length - n)) <+: s)) :
    countSub (A ++ (arcRepl ind v ++ B)) s =
      countSub A s + countSub commentLit s + countSub skStmtLit s +
        countSub pkStmtLit s + countSub arcNewCallLit s + countSub B s := by
  have hs : s ≠ [] := by
    intro h0
    rw [h0] at hs0
    simp at hs0
  have hnin : c0 ∉ '\n' :: ind := head_not_mem_nlind hind hnlc hspc
  rw [arcRepl_decomp]
  rw [countSub_append_bHead hs (by rfl) hnl]
  rw [countSub_chain_sHead hs hs0 hnin]
  rw [countSub_chain_lit hs hnl (by rfl)]
  rw [countSub_chain_nlcons hs hs0 hnlc]
  rw [countSub_chain_sHead hs hs0 hnin]
  rw [countSub_chain_lit hs hnl (by rfl)]
  rw [countSub_chain_nlcons hs hs0 hnlc]
  rw [countSub_chain_sHead hs hs0 hnin]
  rw [countSub_chain_lit hs hnl (by rfl)]
  rw [countSub_chain_nlcons hs hs0 hnlc]
  rw [countSub_chain_sHead hs hs0 hnin]
  rw [countSub_chain_seg hs hs0 hlet]
  rw [countSub_append hs (crossless_word_space hw (by rfl) hcut)]
  rw [countSub_eq_zero (not_infix_of_nonword hw hcw hcww)]
  rw [countSub_chain_seg hs hs0 hmid]
  rw [countSub_append hs
    (crossless_of_tail (show arcNewCallLit = [] ++ arcNewCallLit from rfl) hlenT hchkT)]
  omega

theorem subArc_arcSite {A ind v B : List Char}
    (hind : ∀ c ∈ ind, c = ' ')
    (hv : v ≠ []) (hw : ∀ c ∈ v, isWordChar c = true)
    (hlast : ∃ c, A.getLast? = some c ∧ g2Char c = false)
    (hA : ¬ gunNewParenLit <:+: A)
    (hB : ¬ gunNewParenLit <:+: B) :
    subArc (arcSite A ind v B) = A ++ (arcRepl ind v ++ B) := by
  rw [arcSite_eq]
  unfold subArc
  rw [scanAll_append (fun i hi => mArc_eq_none
    (matchAt_none_inside (fun _ _ _ _ hh => matchArcAt_shape hh)
      (by decide) (by decide) hi hlast hA))]
  have hcan : matchArcAt ('\n' :: (ind ++ (arcStmtLit v ++ B))) =
      some ('\n' :: ind, g2ArcCanon v, B) := by
    have he : '\n' :: (ind ++ (arcStmtLit v ++ B)) = '\n' :: ind ++ arcStmtLit v ++ B := by
      simp [List.append_assoc]
    rw [he]
    exact matchArcAt_canonical hind hv hw
  have hsome : mArc ('\n' :: (ind ++ (arcStmtLit v ++ B))) =
      some (replArc ('\n' :: ind) (g2ArcCanon v), B) := by
    unfold mArc
    rw [hcan]
  rw [scanAll_cons_some mArc_shrinking hsome]
  rw [scanAll_eq_self fun i =>
    mArc_none_of_not_infix (by decide : gunNewParenLit <+: gunNewArcTailLit) hB i]
  rfl

theorem noArgPass_arcSite {A ind v B : List Char}
    (hind : ∀ c ∈ ind, c = ' ')
    (hv : v ≠ []) (hw : ∀ c ∈ v, isWordChar c = true)
    (hlast : ∃ c, A.getLast? = some c ∧ g2Char c = false)
    (hA : ¬ gunNewParenLit <:+: A)
    (hB : ¬ gunNewParenLit <:+: B) :
    noArgPass (arcSite A ind v B) = (A ++ (arcRepl ind v ++ B), true) := by
  have hguard : isSub gunNewCallLit (arcSite A ind v B) = true := by
    rw [isSub_eq_true]
    have h1 : gunNewCallLit <:+: arcTailLit := by decide
    have h2 : arcTailLit <:+: arcSite A ind v B := by
      refine ⟨A ++ '\n' :: (ind ++ (("let ").toList ++ v)), B, ?_⟩
      simp [arcSite, List.append_assoc]
    exact h1.trans h2
  have hnosemi : ¬ gunNewSemiLit <:+: arcSite A ind v B := by
    have hc := @countSub_arcSite A ind v B gunNewSemiLit 'G' ':'
      hind hw (by decide) (by decide) (by decide) (by decide) (by decide)
      (by decide) (by decide) (by decide) (by decide) (by decide)
    apply not_infix_of_countSub_zero (by decide)
    rw [hc]
    rw [countSub_eq_zero (not_infix_mono (by decide : gunNewParenLit <+: gunNewSemiLit) hA),
      countSub_eq_zero (not_infix_mono (by decide : gunNewParenLit <+: gunNewSemiLit) hB)]
    decide
  have hlens : (A ++ (arcRepl ind v ++ B)).length ≠ (arcSite A ind v B).length := by
    have e1 : commentLit.length = 24 := by decide
    have e2 : skStmtLit.length = 50 := by decide
    have e3 : pkStmtLit.length = 41 := by decide
    have e4 : arcNewCallLit.length = 34 := by decide
    have e5 : arcTailLit.length = 24 := by decide
    have e6 : arcMidLit.length = 12 := by decide
    have e7 : (("let ").toList).length = 4 := by decide
    rw [arcRepl_decomp]
    simp [arcSite, g2ArcCanon, List.length_append, List.length_cons,
      e1, e2, e3, e4, e5, e6, e7]
    omega
  have hneq : A ++ (arcRepl ind v ++ B) ≠ arcSite A ind v B := fun h => hlens (by rw [h])
  unfold noArgPass
  rw [hguard]
  simp only [if_true]
  rw [subNew_noop hnosemi, subArc_arcSite hind hv hw hlast hA hB]
  simp [beq_eq_false_iff_ne.mpr hneq]

/-! ### Import augmenter and options-pass guards -/

theorem augmentImports_chia {content : List Char} (h : chiaMarkLit <:+: content) :
    augmentImports content = (content, false) := by
  cases hg : isSub useGunLit content
  · simp [augmentImports, hg]
  · simp [augmentImports, hg, isSub_eq_true.mpr h]

theorem augmentImports_noGunRef {content : List Char} (h : ¬ useGunLit <:+: content) :
    augmentImports content = (content, false) := by
  simp [augmentImports, isSub_eq_false.mpr h]

theorem augmentImports_noUseStmt {content : List Char} (h1 : useGunLit <:+: content)
    (h2 : ¬ chiaMarkLit <:+: content) (h3 : findLastUseEnd content = none) :
    augmentImports content = (content, false) := by
  simp [augmentImports, isSub_eq_true.mpr h1, isSub_eq_false.mpr h2, h3]

theorem noArgPass_noop {content : List Char} (h : ¬ gunNewCallLit <:+: content) :
    noArgPass content = (content, false) := by
  simp [noArgPass, isSub_eq_false.mpr h]

theorem optionsPass_noop {content : List Char} {u : Bool}
    (h : ¬ withOptsLit <:+: content) : optionsPass content u = (content, u) := by
  simp [optionsPass, isSub_eq_false.mpr h]

theorem infix_extend_right {s A X : List Char} (h : s <:+: A) : s <:+: A ++ X :=
  h.trans (List.prefix_append A X).isInfix

/-- The length of a rewritten bare site always differs from the original. -/
theorem bareOut_ne {A ind B : List Char} :
    A ++ (bareRepl ind ++ B) ≠ bareSite A ind B := by
  intro h
  have hlens := congrArg List.length h
  have e1 : commentLit.length = 24 := by decide
  have e2 : skStmtLit.length = 50 := by decide
  have e3 : pkStmtLit.length = 41 := by decide
  have e4 : g2NewCanon.length = 10 := by decide
  have e5 : newCallLit.length = 33 := by decide
  have e6 : bareStmtLit.length = 21 := by decide
  simp [bareSite, bareRepl, replNew, List.length_append, List.length_cons,
    e1, e2, e3, e4, e5, e6] at hlens
  omega

/-- `update_file` on a file with a canonical bare call site, a namespace
reference and the key-pair import already present: the site is rewritten, the
file reports changed, and each inserted fragment appears exactly once. -/
theorem updateFile_bareSite {A ind B : List Char}
    (hchia : chiaMarkLit <:+: A)
    (hind : ∀ c ∈ ind, c = ' ')
    (hlast : ∃ c, A.getLast? = some c ∧ g2Char c = false)
    (hA : ¬ gunNewParenLit <:+: A) (hB : ¬ gunNewParenLit <:+: B)
    (hAw : ¬ withOptsLit <:+: A) (hBw : ¬ withOptsLit <:+: B) :
    updateFile (bareSite A ind B) = (A ++ (bareRepl ind ++ B), true) := by
  have h1 : augmentImports (bareSite A ind B) = (bareSite A ind B, false) :=
    augmentImports_chia (infix_extend_right hchia)
  have h2 := noArgPass_bareSite hind hlast hA hB
  have h3 : ¬ withOptsLit <:+: A ++ (bareRepl ind ++ B) := by
    refine not_infix_bareOut hind
      (show withOptsLit.head? = some 'G' from by decide)
      (by decide) (by decide) (by decide) (by decide) (by decide)
      (countSub_eq_zero hAw) (countSub_eq_zero hBw)
      (by decide) (by decide) (by decide) (by decide)
  have h4 : optionsPass (A ++ (bareRepl ind ++ B)) (false || true) =
      (A ++ (bareRepl ind ++ B), false || true) := optionsPass_noop h3
  unfold updateFile
  rw [h1]
  simp only
  rw [h2]
  simp only
  rw [h4]
  simp [beq_eq_false_iff_ne.mpr (bareOut_ne (A := A))]

theorem mRep_shrinking {pat rep : List Char} : Shrinking (mRep pat rep) := by
  intro l rp r h
  unfold mRep at h
  split at h
  · simp at h
  · split at h
    · rename_i hne hp
      rw [Option.some.injEq, Prod.mk.injEq] at h
      obtain ⟨_, h2⟩ := h
      subst h2
      rw [isPrefixOf_eq_true] at hp
      rcases hp with ⟨t, rfl⟩
      have hpne : pat ≠ [] := by simpa [List.isEmpty_iff] using hne
      have hpos : 0 < pat.length := List.length_pos.mpr hpne
      rw [List.drop_left]
      simp [List.length_append]
      omega
    · simp at h

/-! ### Facts shared by the idempotence and rewrite claims -/

theorem bareOut_no_call {A ind B : List Char}
    (hind : ∀ c ∈ ind, c = ' ')
    (hA : ¬ gunNewParenLit <:+: A) (hB : ¬ gunNewParenLit <:+: B) :
    ¬ gunNewCallLit <:+: A ++ (bareRepl ind ++ B) := by
  refine not_infix_bareOut hind
    (show gunNewCallLit.head? = some 'G' from by decide)
    (by decide) (by decide) (by decide) (by decide) (by decide)
    (countSub_eq_zero (not_infix_mono (by decide) hA))
    (countSub_eq_zero (not_infix_mono (by decide) hB))
    (by decide) (by decide) (by decide) (by decide)

theorem arcOut_no_call {A ind v B : List Char}
    (hind : ∀ c ∈ ind, c = ' ') (hw : ∀ c ∈ v, isWordChar c = true)
    (hA : ¬ gunNewParenLit <:+: A) (hB : ¬ gunNewParenLit <:+: B) :
    ¬ gunNewCallLit <:+: A ++ (arcRepl ind v ++ B) := by
  have hc := @countSub_arcOut A ind v B gunNewCallLit 'G' ':'
    hind hw (by decide) (by decide) (by decide) (by decide) (by decide)
    (by decide) (by decide) (by decide) (by decide) (by decide) (by decide)
  apply not_infix_of_countSub_zero (by decide)
  rw [hc,
    countSub_eq_zero (not_infix_mono (by decide : gunNewParenLit <+: gunNewCallLit) hA),
    countSub_eq_zero (not_infix_mono (by decide : gunNewParenLit <+: gunNewCallLit) hB)]
  decide

theorem no_adjacent_pair {l : List (List Char)} {x y : List Char}
    (h : (l.zip l.tail).all (fun p => !(p.1 == x && p.2 == y)) = true) :
    ∀ j, ¬ (l[j]? = some x ∧ l[j+1]? = some y) := by
  intro j hp
  obtain ⟨h1, h2⟩ := hp
  have ht : l.tail[j]? = some y := by
    rw [List.getElem?_tail]
    exact h2
  have hz : (l.zip l.tail)[j]? = some (x, y) :=
    List.getElem?_zip_eq_some.mpr ⟨h1, ht⟩
  have hm := mem_of_getElem?_some hz
  rw [List.all_eq_true] at h
  have hc := h _ hm
  simp at hc

/-- C1 counterexample: on a file with an import block, a gun-namespace
reference and the statement `let gun = Gun::new();` on its own line, the
transformed text contains the secret-key generation line and the public-key
derivation line, but no line is immediately followed by the other — the
captured `\s+` group includes the newline, so a blank line separates every
pair of inserted lines.  This refutes the claim's "immediately after it". -/
theorem claim_C1_counterexample :
    useGunLit <:+: c1Input ∧ chiaImportLineLit <:+: c1Input ∧
    bareStmtLit <:+: c1Input ∧
    (updateFile c1Input).2 = true ∧
    skLineLit ∈ splitNL (updateFile c1Input).1 ∧
    pkLineLit ∈ splitNL (updateFile c1Input).1 ∧
    ∀ j, ¬ ((splitNL (updateFile c1Input).1)[j]? = some skLineLit ∧
      (splitNL (updateFile c1Input).1)[j + 1]? = some pkLineLit) := by
  refine ⟨by decide, by decide, by decide, by decide, by decide, by decide, ?_⟩
  exact no_adjacent_pair (by decide)

/-- C1 (amended): for every file text with a canonical bare call site
`let gun = Gun::new();` on its own line, preceded by text containing the
key-pair import and a gun-namespace reference, `update_file` rewrites the site
into the comment annotation, exactly one secret-key generation line, exactly
one public-key derivation line and the rewritten binding, in that order and
each carrying the call site's indentation, but with a blank line between
consecutive inserted lines (the captured whitespace group includes the
preceding newline); the file is reported as updated. -/
theorem claim_C1 (A ind B : List Char)
    (_hgun : useGunLit <:+: A)
    (hchia : chiaImportLineLit <:+: A)
    (hind : ∀ c ∈ ind, c = ' ')
    (hlast : ∃ c, A.getLast? = some c ∧ g2Char c = false)
    (hA : ¬ gunNewParenLit <:+: A) (hB : ¬ gunNewParenLit <:+: B)
    (hAw : ¬ withOptsLit <:+: A) (hBw : ¬ withOptsLit <:+: B)
    (hAs : ¬ fromSeedLit <:+: A) (hBs : ¬ fromSeedLit <:+: B)
    (hAp : ¬ pkCallLit <:+: A) (hBp : ¬ pkCallLit <:+: B) :
    updateFile (bareSite A ind B) = (A ++ (bareRepl ind ++ B), true) ∧
    countSub (A ++ (bareRepl ind ++ B)) fromSeedLit = 1 ∧
    countSub (A ++ (bareRepl ind ++ B)) pkCallLit = 1 := by
  refine ⟨updateFile_bareSite
    (((by decide : chiaMarkLit <+: chiaImportLineLit)).isInfix.trans hchia)
    hind hlast hA hB hAw hBw, ?_, ?_⟩
  · rw [countSub_bareOut hind (show fromSeedLit.head? = some 'S' from by decide)
      (by decide) (by decide) (by decide) (by decide) (by decide),
      countSub_eq_zero hAs, countSub_eq_zero hBs]
    decide
  · rw [countSub_bareOut hind (show pkCallLit.head? = some 's' from by decide)
      (by decide) (by decide) (by decide) (by decide) (by decide),
      countSub_eq_zero hAp, countSub_eq_zero hBp]
    decide

/-- C1 witness: the amended claim applied at a concrete file. -/
theorem claim_C1_witness :
    updateFile (bareSite c1A c1Ind c1B) = (c1A ++ (bareRepl c1Ind ++ c1B), true) ∧
    countSub (c1A ++ (bareRepl c1Ind ++ c1B)) fromSeedLit = 1 ∧
    countSub (c1A ++ (bareRepl c1Ind ++ c1B)) pkCallLit = 1 :=
  claim_C1 c1A c1Ind c1B (by decide) (by decide) (by decide)
    ⟨'\x7b', by decide⟩ (by decide) (by decide) (by decide) (by decide)
    (by decide) (by decide) (by decide) (by decide)

/-! ### Claim C3 -/

/-- C3: running the no-argument rewriter on its own already-rewritten output is
a no-op, for a canonical bare call site and a canonical Arc-wrapped call site:
the rewritten texts no longer contain `Gun::new()`, so neither substitution
matches anywhere and the pass reports no change. -/
theorem claim_C3 (A ind v B : List Char)
    (hind : ∀ c ∈ ind, c = ' ')
    (hv : v ≠ []) (hw : ∀ c ∈ v, isWordChar c = true)
    (hlast : ∃ c, A.getLast? = some c ∧ g2Char c = false)
    (hA : ¬ gunNewParenLit <:+: A) (hB : ¬ gunNewParenLit <:+: B) :
    (subNew (noArgPass (bareSite A ind B)).1 = (noArgPass (bareSite A ind B)).1 ∧
     subArc (noArgPass (bareSite A ind B)).1 = (noArgPass (bareSite A ind B)).1 ∧
     noArgPass (noArgPass (bareSite A ind B)).1 =
       ((noArgPass (bareSite A ind B)).1, false)) ∧
    (subNew (noArgPass (arcSite A ind v B)).1 = (noArgPass (arcSite A ind v B)).1 ∧
     subArc (noArgPass (arcSite A ind v B)).1 = (noArgPass (arcSite A ind v B)).1 ∧
     noArgPass (noArgPass (arcSite A ind v B)).1 =
       ((noArgPass (arcSite A ind v B)).1, false)) := by
  have hb := noArgPass_bareSite hind hlast hA hB
  have ha := noArgPass_arcSite hind hv hw hlast hA hB
  have hbn := bareOut_no_call hind hA hB
  have han := arcOut_no_call hind hw hA hB
  rw [hb, ha]
  exact ⟨⟨subNew_noop (not_infix_mono (by decide) hbn), subArc_noop hbn,
      noArgPass_noop hbn⟩,
    ⟨subNew_noop (not_infix_mono (by decide) han), subArc_noop han,
      noArgPass_noop han⟩⟩

/-- C3 witness: idempotence at a concrete bare site and a concrete Arc site. -/
theorem claim_C3_witness :
    (subNew (noArgPass (bareSite c1A c1Ind c1B)).1 = (noArgPass (bareSite c1A c1Ind c1B)).1 ∧
     subArc (noArgPass (bareSite c1A c1Ind c1B)).1 = (noArgPass (bareSite c1A c1Ind c1B)).1 ∧
     noArgPass (noArgPass (bareSite c1A c1Ind c1B)).1 =
       ((noArgPass (bareSite c1A c1Ind c1B)).1, false)) ∧
    (subNew (noArgPass (arcSite c1A c1Ind c3V c1B)).1 =
       (noArgPass (arcSite c1A c1Ind c3V c1B)).1 ∧
     subArc (noArgPass (arcSite c1A c1Ind c3V c1B)).1 =
       (noArgPass (arcSite c1A c1Ind c3V c1B)).1 ∧
     noArgPass (noArgPass (arcSite c1A c1Ind c3V c1B)).1 =
       ((noArgPass (arcSite c1A c1Ind c3V c1B)).1, false)) :=
  claim_C3 c1A c1Ind c3V c1B (by decide) (by decide) (by decide)
    ⟨'\x7b', by decide⟩ (by decide) (by decide)

/-- C6 counterexample: a statement binding a variable named `db` (not `gun`)
to the bare zero-argument constructor call is not rewritten at all — the bare
pattern requires the variable to be literally `gun` — so the file is left
unchanged and reported as not updated, refuting "whatever the bound
variable's name" for the bare form. -/
theorem claim_C6_counterexample :
    (("let db = Gun::new();").toList) <:+: c6Input ∧
    updateFile c6Input = (c6Input, false) := by
  constructor
  · decide
  · decide

/-- C6 (amended): the no-argument rewriter replaces a bare statement only when
the bound variable is literally `gun`, and an Arc-wrapped statement for any
word-character variable name: each becomes the comment annotation, the
secret-key generation from seed `[0u8; 32]`, the public-key derivation, and
the original binding with both keys passed to the constructor call. -/
theorem claim_C6 (A ind v B : List Char)
    (hind : ∀ c ∈ ind, c = ' ')
    (hv : v ≠ []) (hw : ∀ c ∈ v, isWordChar c = true)
    (hlast : ∃ c, A.getLast? = some c ∧ g2Char c = false)
    (hA : ¬ gunNewParenLit <:+: A) (hB : ¬ gunNewParenLit <:+: B) :
    noArgPass (bareSite A ind B) = (A ++ (bareRepl ind ++ B), true) ∧
    noArgPass (arcSite A ind v B) = (A ++ (arcRepl ind v ++ B), true) :=
  ⟨noArgPass_bareSite hind hlast hA hB, noArgPass_arcSite hind hv hw hlast hA hB⟩

/-- C6 witness: the amended claim at a concrete bare site and Arc site. -/
theorem claim_C6_witness :
    noArgPass (bareSite c1A c1Ind c1B) = (c1A ++ (bareRepl c1Ind ++ c1B), true) ∧
    noArgPass (arcSite c1A c1Ind c3V c1B) =
      (c1A ++ (arcRepl c1Ind c3V ++ c1B), true) :=
  claim_C6 c1A c1Ind c3V c1B (by decide) (by decide) (by decide)
    ⟨'\x7b', by decide⟩ (by decide) (by decide)

/-! ### Claim C4 -/

/-- C4: a file text containing no `Gun::new()`, no `Gun::with_options(`, and no
gun-namespace reference lacking the key-pair import is left byte-for-byte
unchanged by the full pipeline, no write is performed, and the file is
reported as not updated. -/
theorem claim_C4 (content : List Char)
    (h1 : ¬ gunNewCallLit <:+: content)
    (h2 : ¬ withOptsLit <:+: content)
    (h3 : useGunLit <:+: content → chiaMarkLit <:+: content) :
    updateFile content = (content, false) := by
  have ha : augmentImports content = (content, false) := by
    by_cases hg : useGunLit <:+: content
    · exact augmentImports_chia (h3 hg)
    · exact augmentImports_noGunRef hg
  have hb := noArgPass_noop h1
  have hc := optionsPass_noop (u := false || false) h2
  unfold updateFile
  rw [ha]
  simp only
  rw [hb]
  simp only
  rw [hc]
  simp

/-- C4 witness: the pipeline at a trigger-free concrete file. -/
theorem claim_C4_witness : updateFile c4Input = (c4Input, false) :=
  claim_C4 c4Input (by decide) (by decide) (fun h => absurd h (by decide))

/-! ### Claim C5 -/

/-- C5: a file already containing the key-pair import line gains no duplicate:
the import augmenter leaves the text untouched, so the number of occurrences
of that exact import line is unchanged by the stage, even when the gun
namespace is referenced elsewhere. -/
theorem claim_C5 (content : List Char)
    (h : chiaImportLineLit <:+: content) :
    augmentImports content = (content, false) ∧
    countSub (augmentImports content).1 chiaImportLineLit =
      countSub content chiaImportLineLit := by
  have ha := augmentImports_chia
    (((by decide : chiaMarkLit <+: chiaImportLineLit)).isInfix.trans h)
  exact ⟨ha, by rw [ha]⟩

/-- C5 witness: a concrete file with the import present and further
gun-namespace references. -/
theorem claim_C5_witness :
    augmentImports c5Input = (c5Input, false) ∧
    countSub (augmentImports c5Input).1 chiaImportLineLit =
      countSub c5Input chiaImportLineLit :=
  claim_C5 c5Input (by decide)

/-! ### Claim C8 -/

/-- C8: a file that references the gun namespace, lacks the key-pair import,
and has no `use …;` match anywhere is passed through the import augmenter
unchanged: the finditer yields no matches, so there is no insertion point and
no insertion occurs. -/
theorem claim_C8 (content : List Char)
    (h1 : useGunLit <:+: content)
    (h2 : ¬ chiaMarkLit <:+: content)
    (h3 : findLastUseEnd content = none) :
    augmentImports content = (content, false) :=
  augmentImports_noUseStmt h1 h2 h3

/-- C8 witness: `use gun::Gun` with no terminating semicolon has a namespace
reference but no import-statement match. -/
theorem claim_C8_witness : augmentImports c8Input = (c8Input, false) :=
  claim_C8 c8Input (by decide) (by decide) (by decide)

/-! ### The options rewriter: search, replace and scan lemmas -/

theorem left_prefix_of_prefix {s t b : List Char} (h : s <+: t ++ b)
    (hlen : t.length ≤ s.length) : t <+: s := by
  have h1 : s = (t ++ b).take s.length := List.prefix_iff_eq_take.mp h
  have h2 : t = s.take t.length := by
    rw [h1, List.take_take, min_eq_left hlen, List.take_append_eq_append_take,
      Nat.sub_self, List.take_length, List.take_zero, List.append_nil]
  rw [h2]
  exact List.take_prefix _ _

/-- No occurrence of `pat` can start strictly inside `a` when `a` does not
contain `pat` and ends in a character outside `pat`. -/
theorem no_pat_inside {pat a rest : List Char} {i : Nat} (hi : i < a.length)
    (ha : ¬ pat <:+: a)
    (hlast : ∃ c, a.getLast? = some c ∧ c ∉ pat) :
    ¬ pat <+: ((a ++ rest).drop i) := by
  intro hp
  have hdrop : (a ++ rest).drop i = a.drop i ++ rest := by
    rw [List.drop_append_eq_append_drop, Nat.sub_eq_zero_of_le (le_of_lt hi)]
    rfl
  rw [hdrop] at hp
  rcases le_or_lt pat.length (a.drop i).length with hle | hlt
  · exact ha (infix_of_prefix_drop (prefix_of_prefix_append hp hle))
  · obtain ⟨c, hc, hcp⟩ := hlast
    apply hcp
    have htp : a.drop i <+: pat := left_prefix_of_prefix hp (le_of_lt hlt)
    have hne : a.drop i ≠ [] := by
      intro h0
      have := congrArg List.length h0
      simp at this
      omega
    have hl := suffix_getLast (List.drop_suffix i a) hne
    rw [hc] at hl
    exact htp.subset (mem_of_getLast?_some hl)

theorem tryWithOptsAt_some_front {l v : List Char} (h : tryWithOptsAt l = some v) :
    withOptsLit <+: l := by
  unfold tryWithOptsAt at h
  cases h1 : litM withOptsLit l with
  | none => rw [h1] at h; simp at h
  | some r =>
    have := litM_some h1
    exact ⟨r, this.symm⟩

theorem tryWithOptsAt_none {l : List Char} (h : ¬ withOptsLit <+: l) :
    tryWithOptsAt l = none := by
  cases ht : tryWithOptsAt l with
  | none => rfl
  | some v => exact absurd (tryWithOptsAt_some_front ht) h

theorem search_cons_none {c : Char} {cs : List Char}
    (h : tryWithOptsAt (c :: cs) = none) :
    searchWithOptsVar (c :: cs) = searchWithOptsVar cs := by
  have he : searchWithOptsVar (c :: cs) =
      match tryWithOptsAt (c :: cs) with
      | some w => some w
      | none => searchWithOptsVar cs := rfl
  rw [he, h]

theorem search_cons_some {c : Char} {cs v : List Char}
    (h : tryWithOptsAt (c :: cs) = some v) :
    searchWithOptsVar (c :: cs) = some v := by
  have he : searchWithOptsVar (c :: cs) =
      match tryWithOptsAt (c :: cs) with
      | some w => some w
      | none => searchWithOptsVar cs := rfl
  rw [he, h]

theorem search_append {a b : List Char}
    (h : ∀ i, i < a.length → tryWithOptsAt ((a ++ b).drop i) = none) :
    searchWithOptsVar (a ++ b) = searchWithOptsVar b := by
  induction a with
  | nil => rfl
  | cons c as ih =>
    have h0 : tryWithOptsAt (c :: (as ++ b)) = none := by simpa using h 0 (by simp)
    rw [List.cons_append, search_cons_none h0]
    exact ih fun i hi => by simpa using h (i + 1) (by simp; omega)

theorem search_none {l : List Char} (h : ∀ i, tryWithOptsAt (l.drop i) = none) :
    searchWithOptsVar l = none := by
  induction l with
  | nil => rfl
  | cons c cs ih =>
    rw [search_cons_none (by simpa using h 0)]
    exact ih fun i => by simpa using h (i + 1)

theorem search_none_of_not_infix {l : List Char} (h : ¬ withOptsLit <:+: l) :
    searchWithOptsVar l = none :=
  search_none fun _ => tryWithOptsAt_none fun hp => h (infix_of_prefix_drop hp)

theorem tryWithOptsAt_canonical {b : List Char} :
    tryWithOptsAt (withOptsLit ++ (optsTail1 ++ b)) = some optsVarLit := by
  have he : withOptsLit ++ (optsTail1 ++ b) =
      withOptsLit ++ (optsVarLit ++ ')' :: ((".await").toList ++ b)) := rfl
  rw [he]
  unfold tryWithOptsAt
  have h2 : manyOne isWordChar (optsVarLit ++ ')' :: ((".await").toList ++ b)) =
      some (optsVarLit, ')' :: ((".await").toList ++ b)) :=
    manyOne_append_stop (by decide) (by decide) (by decide)
  simp only [litM_self, h2]

theorem mRep_none_of_not_prefix {pat rep l : List Char} (h : ¬ pat <+: l) :
    mRep pat rep l = none := by
  unfold mRep
  split
  · rfl
  · rw [if_neg]
    intro hp
    exact h (isPrefixOf_eq_true.mp hp)

theorem mRep_self {pat rep post : List Char} (hpat : pat ≠ []) :
    mRep pat rep (pat ++ post) = some (rep, post) := by
  unfold mRep
  rw [if_neg (by simpa [List.isEmpty_iff] using hpat),
    if_pos (isPrefixOf_eq_true.mpr (List.prefix_append pat post)), List.drop_left]

/-- `str.replace` on a line with exactly one occurrence of the pattern. -/
theorem strReplace_single {a pat rep post : List Char} (hpat : pat ≠ [])
    (ha : ¬ pat <:+: a)
    (hlast : ∃ c, a.getLast? = some c ∧ c ∉ pat)
    (hpost : ¬ pat <:+: post) :
    strReplace (a ++ (pat ++ post)) pat rep = a ++ (rep ++ post) := by
  unfold strReplace
  rw [scanAll_append fun i hi =>
    mRep_none_of_not_prefix (no_pat_inside hi ha hlast)]
  obtain ⟨p0, pt, hp⟩ := List.exists_cons_of_ne_nil hpat
  have hsome : mRep pat rep (p0 :: (pt ++ post)) = some (rep, post) := by
    rw [show p0 :: (pt ++ post) = pat ++ post by rw [hp]; rfl]
    exact mRep_self hpat
  have hform : pat ++ post = p0 :: (pt ++ post) := by rw [hp]; rfl
  rw [hform, scanAll_cons_some mRep_shrinking hsome]
  rw [scanAll_eq_self fun i =>
    mRep_none_of_not_prefix fun hpp => hpost (infix_of_prefix_drop hpp)]

/-! ### Line-scan step lemmas for the options rewriter -/

theorem optScan_nil {orig : List (List Char)} {i k : Nat} {u : Bool} :
    optScan orig i k u [] = ([], u, k) := rfl

theorem optScan_cons_clean {orig : List (List Char)} {i k : Nat} {u : Bool}
    {line : List Char} {rest : List (List Char)}
    (h : isSub withOptsLit line = false) :
    optScan orig i k u (line :: rest) =
      (line :: (optScan orig (i + 1) k u rest).1, (optScan orig (i + 1) k u rest).2) := by
  simp [optScan, h]

theorem optScan_cons_skip {orig : List (List Char)} {i k : Nat} {u : Bool}
    {line : List Char} {rest : List (List Char)}
    (h1 : isSub withOptsLit line = true)
    (h2 : isSub fromSeedLit (joinNL (windowOf orig i)) = true) :
    optScan orig i k u (line :: rest) =
      (line :: (optScan orig (i + 1) k u rest).1, (optScan orig (i + 1) k u rest).2) := by
  simp [optScan, h1, h2]

theorem optScan_cons_rewrite {orig : List (List Char)} {i k : Nat} {u : Bool}
    {line v : List Char} {rest : List (List Char)}
    (h1 : isSub withOptsLit line = true)
    (h2 : isSub fromSeedLit (joinNL (windowOf orig i)) = false)
    (h3 : searchWithOptsVar line = some v) :
    optScan orig i k u (line :: rest) =
      (keyGenLines k (line.takeWhile isPySpace).length ::
        strReplace line (callPat v) (callRep k v) ::
          (optScan orig (i + 1) (k + 1) true rest).1,
        (optScan orig (i + 1) (k + 1) true rest).2) := by
  simp [optScan, h1, h2, h3]

theorem optScan_cons_nomatch {orig : List (List Char)} {i k : Nat} {u : Bool}
    {line : List Char} {rest : List (List Char)}
    (h1 : isSub withOptsLit line = true)
    (h2 : isSub fromSeedLit (joinNL (windowOf orig i)) = false)
    (h3 : searchWithOptsVar line = none) :
    optScan orig i k u (line :: rest) =
      (line :: (optScan orig (i + 1) k u rest).1, (optScan orig (i + 1) k u rest).2) := by
  simp [optScan, h1, h2, h3]

theorem optScan_append_clean {orig : List (List Char)} {P rest : List (List Char)}
    (h : ∀ l ∈ P, isSub withOptsLit l = false) :
    ∀ i k u, optScan orig i k u (P ++ rest) =
      (P ++ (optScan orig (i + P.length) k u rest).1,
        (optScan orig (i + P.length) k u rest).2) := by
  induction P with
  | nil => intro i k u; simp
  | cons p ps ih =>
    intro i k u
    have harith : i + 1 + ps.length = i + (ps.length + 1) := by omega
    rw [List.cons_append, optScan_cons_clean (h p (by simp))]
    rw [ih (fun l hl => h l (by simp [hl])) (i + 1) k u, harith]
    rfl

theorem optScan_all_clean {orig : List (List Char)} {P : List (List Char)}
    (h : ∀ l ∈ P, isSub withOptsLit l = false) :
    ∀ i k u, optScan orig i k u P = (P, u, k) := by
  intro i k u
  have := @optScan_append_clean orig P [] h i k u
  simpa [optScan_nil] using this

/-! ### Window and join lemmas -/

theorem infix_extend_left {s X a : List Char} (h : s <:+: X) : s <:+: a ++ X :=
  h.trans (List.suffix_append a X).isInfix

theorem infix_joinNL_of_mem {ls : List (List Char)} {l : List Char} (h : l ∈ ls) :
    l <:+: joinNL ls := by
  induction ls with
  | nil => simp at h
  | cons a t ih =>
    cases t with
    | nil =>
      rcases List.mem_cons.mp h with rfl | h2
      · exact List.infix_refl l
      · simp at h2
    | cons b t2 =>
      rcases List.mem_cons.mp h with rfl | h2
      · rw [joinNL]
        exact (List.prefix_append l _).isInfix
      · rw [joinNL]
        exact infix_extend_left ((ih h2).trans (List.suffix_cons '\n' _).isInfix)

theorem joinNL_no_seed {ls : List (List Char)} (h : ∀ l ∈ ls, ¬ fromSeedLit <:+: l) :
    ¬ fromSeedLit <:+: joinNL ls := by
  induction ls with
  | nil => decide
  | cons a t ih =>
    cases t with
    | nil => simpa [joinNL] using h a (by simp)
    | cons b t2 =>
      rw [joinNL]
      have hJ : ¬ fromSeedLit <:+: joinNL (b :: t2) := ih fun l hl => h l (by simp [hl])
      refine not_infix_append (h a (by simp)) ?_
        (crossless_of_bHead (by rfl) (by decide))
      have he : ('\n' :: joinNL (b :: t2)) = ['\n'] ++ joinNL (b :: t2) := rfl
      rw [he]
      exact not_infix_append (by decide) hJ
        (crossless_of_sHead (show fromSeedLit.head? = some 'S' from by decide) (by decide))

theorem windowOf_mem_dest {orig : List (List Char)} {i : Nat} {l : List Char}
    (h : l ∈ windowOf orig i) : ∃ j, j < i ∧ i ≤ j + 5 ∧ orig[j]? = some l := by
  unfold windowOf at h
  rw [List.mem_iff_getElem?] at h
  obtain ⟨n, hn⟩ := h
  rw [List.getElem?_take] at hn
  split at hn
  · rename_i hlt
    rw [lt_min_iff] at hlt
    rw [List.getElem?_drop] at hn
    exact ⟨i - 5 + n, by omega, by omega, hn⟩
  · simp at hn

theorem windowOf_mem_src {orig : List (List Char)} {j i : Nat} {w : List Char}
    (h : orig[j]? = some w) (h1 : j < i) (h2 : i ≤ j + 5) : w ∈ windowOf orig i := by
  unfold windowOf
  apply mem_of_getElem?_some (j := j - (i - 5))
  rw [List.getElem?_take, if_pos (by rw [lt_min_iff]; omega), List.getElem?_drop,
    show i - 5 + (j - (i - 5)) = j by omega]
  exact h

theorem window_clean {orig : List (List Char)} {i : Nat}
    (h : ∀ j, j < i → i ≤ j + 5 → ∀ l, orig[j]? = some l → ¬ fromSeedLit <:+: l) :
    isSub fromSeedLit (joinNL (windowOf orig i)) = false := by
  rw [isSub_eq_false]
  apply joinNL_no_seed
  intro l hl
  obtain ⟨j, hj, hj5, he⟩ := windowOf_mem_dest hl
  exact h j hj hj5 l he

theorem window_dirty {orig : List (List Char)} {j i : Nat} {w : List Char}
    (hw : orig[j]? = some w) (h1 : j < i) (h2 : i ≤ j + 5)
    (hseed : fromSeedLit <:+: w) :
    isSub fromSeedLit (joinNL (windowOf orig i)) = true := by
  rw [isSub_eq_true]
  exact hseed.trans (infix_joinNL_of_mem (windowOf_mem_src hw h1 h2))

theorem optLine_hasCall {a b : List Char} : isSub withOptsLit (optLine a b) = true := by
  rw [isSub_eq_true]
  exact infix_extend_left (List.prefix_append _ _).isInfix

theorem not_callPat_of_not_withOpts {c : Char} (h : c ∉ callPat optsVarLit) :
    c ∉ withOptsLit := fun hm =>
  h ((by decide : withOptsLit <+: callPat optsVarLit).subset hm)

theorem optLine_search {a b : List Char}
    (ha : ¬ withOptsLit <:+: a)
    (hlast : ∃ c, a.getLast? = some c ∧ c ∉ callPat optsVarLit) :
    searchWithOptsVar (optLine a b) = some optsVarLit := by
  obtain ⟨c, hc, hcp⟩ := hlast
  unfold optLine
  rw [search_append fun i hi =>
    tryWithOptsAt_none (no_pat_inside hi ha ⟨c, hc, not_callPat_of_not_withOpts hcp⟩)]
  exact search_cons_some tryWithOptsAt_canonical

theorem optLine_replace {k : Nat} {a b : List Char}
    (ha : ¬ withOptsLit <:+: a)
    (hlast : ∃ c, a.getLast? = some c ∧ c ∉ callPat optsVarLit)
    (hb : ¬ withOptsLit <:+: b) :
    strReplace (optLine a b) (callPat optsVarLit) (callRep k optsVarLit) =
      optLineDone k a b := by
  have hre : optLine a b = a ++ (callPat optsVarLit ++ ((".await").toList ++ b)) := rfl
  rw [hre]
  exact strReplace_single (by decide)
    (not_infix_mono (by decide : withOptsLit <+: callPat optsVarLit) ha) hlast
    (not_infix_append (by decide)
      (not_infix_mono (by decide : withOptsLit <+: callPat optsVarLit) hb)
      (crossless_of_sHead (show (callPat optsVarLit).head? = some 'G' from by decide)
        (by decide)))

theorem optScan_site_rewrite {orig : List (List Char)} {i k : Nat} {u : Bool}
    {a b : List Char} {S : List (List Char)}
    (hw : isSub fromSeedLit (joinNL (windowOf orig i)) = false)
    (ha : ¬ withOptsLit <:+: a) (hb : ¬ withOptsLit <:+: b)
    (hlast : ∃ c, a.getLast? = some c ∧ c ∉ callPat optsVarLit) :
    optScan orig i k u (optLine a b :: S) =
      (keyGenLines k ((optLine a b).takeWhile isPySpace).length ::
        optLineDone k a b :: (optScan orig (i + 1) (k + 1) true S).1,
        (optScan orig (i + 1) (k + 1) true S).2) := by
  rw [optScan_cons_rewrite optLine_hasCall hw (optLine_search ha hlast),
    optLine_replace ha hlast hb]

theorem optLine_no_seed {a b : List Char}
    (hsa : ¬ fromSeedLit <:+: a) (hsb : ¬ fromSeedLit <:+: b) :
    ¬ fromSeedLit <:+: optLine a b := by
  unfold optLine
  refine not_infix_append hsa ?_ (crossless_of_bHead (by rfl) (by decide))
  rw [show withOptsLit ++ (optsTail1 ++ b) = optsCallAwaitLit ++ b from rfl]
  exact not_infix_append (by decide) hsb
    (crossless_of_tail (show optsCallAwaitLit = [] ++ optsCallAwaitLit from rfl)
      (by decide) (by decide))

/-! ### Whole-scan helpers for the options rewriter -/

theorem lines_getElem?_left {α : Type} {P rest : List α} {j : Nat} (hj : j < P.length) :
    (P ++ rest)[j]? = P[j]? := by
  rw [List.getElem?_append, if_pos hj]

theorem lines_getElem?_mid {α : Type} {P : List α} {x : α} {rest : List α} :
    (P ++ x :: rest)[P.length]? = some x := by
  rw [List.getElem?_append, if_neg (lt_irrefl _), Nat.sub_self]
  simp

theorem cons_middle_assoc {α : Type} (P Q X : List α) (w : α) :
    P ++ w :: Q ++ X = (P ++ w :: Q) ++ X := by simp

theorem window_clean_front {P rest : List (List Char)} {i : Nat}
    (hP : ∀ l ∈ P, ¬ fromSeedLit <:+: l) (hi : i ≤ P.length) :
    isSub fromSeedLit (joinNL (windowOf (P ++ rest) i)) = false := by
  apply window_clean
  intro j hj _ l hl
  rw [lines_getElem?_left (by omega)] at hl
  exact hP l (mem_of_getElem?_some hl)

theorem window_clean_site2 {P : List (List Char)} {a1 b1 : List Char}
    {rest : List (List Char)}
    (hP : ∀ l ∈ P, ¬ fromSeedLit <:+: l)
    (hs1a : ¬ fromSeedLit <:+: a1) (hs1b : ¬ fromSeedLit <:+: b1) :
    isSub fromSeedLit
      (joinNL (windowOf (P ++ optLine a1 b1 :: rest) (P.length + 1))) = false := by
  apply window_clean
  intro j hj _ l hl
  rcases Nat.lt_or_ge j P.length with h | h
  · rw [lines_getElem?_left h] at hl
    exact hP l (mem_of_getElem?_some hl)
  · have hje : j = P.length := by omega
    subst hje
    rw [lines_getElem?_mid, Option.some_inj] at hl
    exact hl ▸ optLine_no_seed hs1a hs1b

theorem optScan_two_sites {P S : List (List Char)} {a1 b1 a2 b2 : List Char}
    {k : Nat} {u : Bool}
    (hP : ∀ l ∈ P, isSub withOptsLit l = false ∧ ¬ fromSeedLit <:+: l)
    (hS : ∀ l ∈ S, isSub withOptsLit l = false)
    (ha1 : ¬ withOptsLit <:+: a1) (hb1 : ¬ withOptsLit <:+: b1)
    (hl1 : ∃ c, a1.getLast? = some c ∧ c ∉ callPat optsVarLit)
    (hs1a : ¬ fromSeedLit <:+: a1) (hs1b : ¬ fromSeedLit <:+: b1)
    (ha2 : ¬ withOptsLit <:+: a2) (hb2 : ¬ withOptsLit <:+: b2)
    (hl2 : ∃ c, a2.getLast? = some c ∧ c ∉ callPat optsVarLit) :
    optScan (P ++ optLine a1 b1 :: optLine a2 b2 :: S) 0 k u
        (P ++ optLine a1 b1 :: optLine a2 b2 :: S) =
      (P ++ keyGenLines k ((optLine a1 b1).takeWhile isPySpace).length ::
          optLineDone k a1 b1 ::
          keyGenLines (k + 1) ((optLine a2 b2).takeWhile isPySpace).length ::
          optLineDone (k + 1) a2 b2 :: S, true, k + 2) := by
  have hw1 := @window_clean_front P (optLine a1 b1 :: optLine a2 b2 :: S) P.length
    (fun l hl => (hP l hl).2) (le_refl P.length)
  have hw2 := @window_clean_site2 P a1 b1 (optLine a2 b2 :: S)
    (fun l hl => (hP l hl).2) hs1a hs1b
  rw [optScan_append_clean (fun l hl => (hP l hl).1) 0 k u, Nat.zero_add,
    optScan_site_rewrite hw1 ha1 hb1 hl1,
    optScan_site_rewrite hw2 ha2 hb2 hl2,
    optScan_all_clean hS]

theorem optScan_one_site {P S : List (List Char)} {a b : List Char} {k : Nat} {u : Bool}
    (hP : ∀ l ∈ P, isSub withOptsLit l = false ∧ ¬ fromSeedLit <:+: l)
    (hS : ∀ l ∈ S, isSub withOptsLit l = false)
    (ha : ¬ withOptsLit <:+: a) (hb : ¬ withOptsLit <:+: b)
    (hlast : ∃ c, a.getLast? = some c ∧ c ∉ callPat optsVarLit) :
    optScan (P ++ optLine a b :: S) 0 k u (P ++ optLine a b :: S) =
      (P ++ keyGenLines k ((optLine a b).takeWhile isPySpace).length ::
        optLineDone k a b :: S, true, k + 1) := by
  rw [optScan_append_clean (fun l hl => (hP l hl).1) 0 k u, Nat.zero_add,
    optScan_site_rewrite (window_clean_front (fun l hl => (hP l hl).2)
      (le_refl P.length)) ha hb hlast,
    optScan_all_clean hS]

theorem optScan_site_skipped {P S : List (List Char)} {a b : List Char} {k : Nat}
    {u : Bool} {j : Nat} {w : List Char}
    (hP : ∀ l ∈ P, isSub withOptsLit l = false)
    (hS : ∀ l ∈ S, isSub withOptsLit l = false)
    (hw : P[j]? = some w) (hseed : fromSeedLit <:+: w) (hnear : P.length ≤ j + 5) :
    optScan (P ++ optLine a b :: S) 0 k u (P ++ optLine a b :: S) =
      (P ++ optLine a b :: S, u, k) := by
  have hj : j < P.length := (List.getElem?_eq_some.mp hw).1
  have hdirty : isSub fromSeedLit
      (joinNL (windowOf (P ++ optLine a b :: S) P.length)) = true :=
    window_dirty (by rw [lines_getElem?_left hj]; exact hw) hj hnear hseed
  rw [optScan_append_clean hP 0 k u, Nat.zero_add,
    optScan_cons_skip optLine_hasCall hdirty, optScan_all_clean hS]

theorem optScan_line_nomatch {P S : List (List Char)} {l : List Char} {k : Nat} {u : Bool}
    (hP : ∀ x ∈ P, isSub withOptsLit x = false)
    (hS : ∀ x ∈ S, isSub withOptsLit x = false)
    (hcall : isSub withOptsLit l = true)
    (hsearch : searchWithOptsVar l = none) :
    optScan (P ++ l :: S) 0 k u (P ++ l :: S) = (P ++ l :: S, u, k) := by
  rw [optScan_append_clean hP 0 k u, Nat.zero_add]
  have hstep : optScan (P ++ l :: S) P.length k u (l :: S) =
      (l :: (optScan (P ++ l :: S) (P.length + 1) k u S).1,
        (optScan (P ++ l :: S) (P.length + 1) k u S).2) := by
    cases hwin : isSub fromSeedLit (joinNL (windowOf (P ++ l :: S) P.length)) with
    | true => exact optScan_cons_skip hcall hwin
    | false => exact optScan_cons_nomatch hcall hwin hsearch
  rw [hstep, optScan_all_clean hS]

theorem optScan_far_seed {P Q S : List (List Char)} {w a b : List Char} {k : Nat}
    {u : Bool}
    (hP : ∀ l ∈ P, isSub withOptsLit l = false)
    (hw : isSub withOptsLit w = false)
    (hQ : ∀ l ∈ Q, isSub withOptsLit l = false ∧ ¬ fromSeedLit <:+: l)
    (hS : ∀ l ∈ S, isSub withOptsLit l = false)
    (hfar : 5 ≤ Q.length)
    (ha : ¬ withOptsLit <:+: a) (hb : ¬ withOptsLit <:+: b)
    (hlast : ∃ c, a.getLast? = some c ∧ c ∉ callPat optsVarLit) :
    optScan ((P ++ w :: Q) ++ optLine a b :: S) 0 k u
        ((P ++ w :: Q) ++ optLine a b :: S) =
      ((P ++ w :: Q) ++ keyGenLines k ((optLine a b).takeWhile isPySpace).length ::
        optLineDone k a b :: S, true, k + 1) := by
  have hPQ : ∀ l ∈ P ++ w :: Q, isSub withOptsLit l = false := by
    intro l hl
    rcases List.mem_append.mp hl with h | h
    · exact hP l h
    · rcases List.mem_cons.mp h with rfl | h2
      · exact hw
      · exact (hQ l h2).1
  have hwin : isSub fromSeedLit
      (joinNL (windowOf ((P ++ w :: Q) ++ optLine a b :: S) (P ++ w :: Q).length)) =
        false := by
    apply window_clean
    intro j hj hj5 l hl
    simp only [List.length_append, List.length_cons] at hj hj5
    rw [lines_getElem?_left (by simp only [List.length_append, List.length_cons]; omega)]
      at hl
    rw [List.getElem?_append, if_neg (by omega)] at hl
    have hm : j - P.length = (j - P.length - 1) + 1 := by omega
    rw [hm, List.getElem?_cons_succ] at hl
    exact (hQ l (mem_of_getElem?_some hl)).2
  rw [optScan_append_clean hPQ 0 k u, Nat.zero_add,
    optScan_site_rewrite hwin ha hb hlast, optScan_all_clean hS]

theorem fromSeed_infix_keyGenLines (k ind : Nat) :
    fromSeedLit <:+: keyGenLines k ind := by
  have h1 : fromSeedLit <:+: (" = SecretKey::from_seed(&[").toList :=
    isSub_eq_true.mp (by decide)
  unfold keyGenLines
  exact infix_extend_right (infix_extend_right (infix_extend_right
    (infix_extend_right (infix_extend_right (infix_extend_right
      (infix_extend_right (infix_extend_right (infix_extend_left h1))))))))

/-! ### Claims C2, C7, C9, C10 -/

/-- C2: on a file whose lines are a clean prefix, two adjacent canonical
`Gun::with_options(options).await` call lines, and a clean suffix, the line scan
(started at counter 1, as the script does) inserts the `secret_key1`/`public_key1`
pair seeded `[1u8; 32]` before the first call, the `secret_key2`/`public_key2`
pair seeded `[2u8; 32]` before the second, rewrites each call to pass the key
identifiers ahead of the options argument, and leaves the counter at 3 — one
increment per rewritten site.  The trailing equations spell out the inserted
lines and the rewritten calls literally. -/
theorem claim_C2 :
    (∀ (P S : List (List Char)) (a1 b1 a2 b2 : List Char),
      (∀ l ∈ P, isSub withOptsLit l = false ∧ ¬ fromSeedLit <:+: l) →
      (∀ l ∈ S, isSub withOptsLit l = false) →
      ¬ withOptsLit <:+: a1 → ¬ withOptsLit <:+: b1 →
      (∃ c, a1.getLast? = some c ∧ c ∉ callPat optsVarLit) →
      ¬ fromSeedLit <:+: a1 → ¬ fromSeedLit <:+: b1 →
      ¬ withOptsLit <:+: a2 → ¬ withOptsLit <:+: b2 →
      (∃ c, a2.getLast? = some c ∧ c ∉ callPat optsVarLit) →
      optScan (P ++ optLine a1 b1 :: optLine a2 b2 :: S) 0 1 false
          (P ++ optLine a1 b1 :: optLine a2 b2 :: S) =
        (P ++ keyGenLines 1 ((optLine a1 b1).takeWhile isPySpace).length ::
            optLineDone 1 a1 b1 ::
            keyGenLines 2 ((optLine a2 b2).takeWhile isPySpace).length ::
            optLineDone 2 a2 b2 :: S, true, 3))
    ∧ keyGenLines 1 0 =
      ("let secret_key1 = SecretKey::from_seed(&[1u8; 32]);\nlet public_key1 = secret_key1.public_key();").toList
    ∧ keyGenLines 2 0 =
      ("let secret_key2 = SecretKey::from_seed(&[2u8; 32]);\nlet public_key2 = secret_key2.public_key();").toList
    ∧ callRep 1 optsVarLit =
      ("Gun::with_options(secret_key1, public_key1, options)").toList
    ∧ callRep 2 optsVarLit =
      ("Gun::with_options(secret_key2, public_key2, options)").toList := by
  refine ⟨?_, by decide, by decide, by decide, by decide⟩
  intro P S a1 b1 a2 b2 hP hS ha1 hb1 hl1 hs1a hs1b ha2 hb2 hl2
  exact optScan_two_sites hP hS ha1 hb1 hl1 hs1a hs1b ha2 hb2 hl2

/-- Closed instance of C2 on a five-line file with two adjacent call sites. -/
theorem claim_C2_witness :
    optScan (c2P ++ optLine c2A1 c2B1 :: optLine c2A2 c2B2 :: c2S) 0 1 false
        (c2P ++ optLine c2A1 c2B1 :: optLine c2A2 c2B2 :: c2S) =
      (c2P ++ keyGenLines 1 ((optLine c2A1 c2B1).takeWhile isPySpace).length ::
          optLineDone 1 c2A1 c2B1 ::
          keyGenLines 2 ((optLine c2A2 c2B2).takeWhile isPySpace).length ::
          optLineDone 2 c2A2 c2B2 :: c2S, true, 3) :=
  claim_C2.1 c2P c2S c2A1 c2B1 c2A2 c2B2 (by decide) (by decide)
    (isSub_eq_false.mp (by decide)) (isSub_eq_false.mp (by decide))
    ⟨' ', by decide⟩
    (isSub_eq_false.mp (by decide)) (isSub_eq_false.mp (by decide))
    (isSub_eq_false.mp (by decide)) (isSub_eq_false.mp (by decide))
    ⟨' ', by decide⟩

/-- C7: in the options rewriter's line scan, a canonical call line whose
lookback window of preceding original lines contains a `SecretKey::from_seed`
occurrence is skipped — the line list, the updated flag and the counter all come
back unchanged — while a call line whose window is clean is rewritten, with the
key-generation pair inserted before it and the counter bumped by one. -/
theorem claim_C7 :
    (∀ (P S : List (List Char)) (a b w : List Char) (j k : Nat) (u : Bool),
      (∀ l ∈ P, isSub withOptsLit l = false) →
      (∀ l ∈ S, isSub withOptsLit l = false) →
      P[j]? = some w → fromSeedLit <:+: w → P.length ≤ j + 5 →
      optScan (P ++ optLine a b :: S) 0 k u (P ++ optLine a b :: S) =
        (P ++ optLine a b :: S, u, k))
    ∧ (∀ (P S : List (List Char)) (a b : List Char) (k : Nat) (u : Bool),
      (∀ l ∈ P, isSub withOptsLit l = false ∧ ¬ fromSeedLit <:+: l) →
      (∀ l ∈ S, isSub withOptsLit l = false) →
      ¬ withOptsLit <:+: a → ¬ withOptsLit <:+: b →
      (∃ c, a.getLast? = some c ∧ c ∉ callPat optsVarLit) →
      optScan (P ++ optLine a b :: S) 0 k u (P ++ optLine a b :: S) =
        (P ++ keyGenLines k ((optLine a b).takeWhile isPySpace).length ::
          optLineDone k a b :: S, true, k + 1)) :=
  ⟨fun _ _ _ _ _ _ _ _ hP hS hw hseed hnear =>
    optScan_site_skipped hP hS hw hseed hnear,
   fun _ _ _ _ _ _ hP hS ha hb hlast => optScan_one_site hP hS ha hb hlast⟩

/-- Closed instance of C7: the call is skipped when a seed line directly
precedes it, and rewritten when nothing precedes it. -/
theorem claim_C7_witness :
    (optScan ([c7Seed] ++ optLine c7A c7B :: []) 0 1 false
        ([c7Seed] ++ optLine c7A c7B :: []) =
      ([c7Seed] ++ optLine c7A c7B :: [], false, 1))
    ∧ (optScan ([] ++ optLine c7A c7B :: []) 0 1 false
        ([] ++ optLine c7A c7B :: []) =
      ([] ++ keyGenLines 1 ((optLine c7A c7B).takeWhile isPySpace).length ::
        optLineDone 1 c7A c7B :: [], true, 2)) :=
  ⟨claim_C7.1 [c7Seed] [] c7A c7B c7Seed 0 1 false (by decide) (by decide) rfl
      (isSub_eq_true.mp (by decide)) (by decide),
   claim_C7.2 [] [] c7A c7B 1 false (by decide) (by decide)
      (isSub_eq_false.mp (by decide)) (isSub_eq_false.mp (by decide))
      ⟨' ', by decide⟩⟩

/-- C9: the lookback window is exactly the five preceding lines of the original
list: (a) a seed line six or more lines above the call (at least five clean
lines in between) does not suppress the rewrite; (b) a seed line within the
five-line window suppresses it even when the clean lines in between are
unrelated to the call; (c) of two adjacent call sites both are rewritten — the
key-generation lines inserted before the first site do not suppress the second,
because the window reads the original line list, not the output being built —
and (d) those inserted lines do contain `SecretKey::from_seed`, so they would
have matched the window check had it read the output. -/
theorem claim_C9 :
    (∀ (P Q S : List (List Char)) (w a b : List Char) (k : Nat) (u : Bool),
      (∀ l ∈ P, isSub withOptsLit l = false) →
      isSub withOptsLit w = false → fromSeedLit <:+: w →
      (∀ l ∈ Q, isSub withOptsLit l = false ∧ ¬ fromSeedLit <:+: l) →
      (∀ l ∈ S, isSub withOptsLit l = false) →
      5 ≤ Q.length →
      ¬ withOptsLit <:+: a → ¬ withOptsLit <:+: b →
      (∃ c, a.getLast? = some c ∧ c ∉ callPat optsVarLit) →
      optScan (P ++ w :: Q ++ optLine a b :: S) 0 k u
          (P ++ w :: Q ++ optLine a b :: S) =
        (P ++ w :: Q ++ keyGenLines k ((optLine a b).takeWhile isPySpace).length ::
          optLineDone k a b :: S, true, k + 1))
    ∧ (∀ (P Q S : List (List Char)) (w a b : List Char) (k : Nat) (u : Bool),
      (∀ l ∈ P, isSub withOptsLit l = false) →
      isSub withOptsLit w = false → fromSeedLit <:+: w →
      (∀ l ∈ Q, isSub withOptsLit l = false) →
      (∀ l ∈ S, isSub withOptsLit l = false) →
      Q.length ≤ 4 →
      optScan (P ++ w :: Q ++ optLine a b :: S) 0 k u
          (P ++ w :: Q ++ optLine a b :: S) =
        (P ++ w :: Q ++ optLine a b :: S, u, k))
    ∧ (∀ (P S : List (List Char)) (a1 b1 a2 b2 : List Char) (k : Nat) (u : Bool),
      (∀ l ∈ P, isSub withOptsLit l = false ∧ ¬ fromSeedLit <:+: l) →
      (∀ l ∈ S, isSub withOptsLit l = false) →
      ¬ withOptsLit <:+: a1 → ¬ withOptsLit <:+: b1 →
      (∃ c, a1.getLast? = some c ∧ c ∉ callPat optsVarLit) →
      ¬ fromSeedLit <:+: a1 → ¬ fromSeedLit <:+: b1 →
      ¬ withOptsLit <:+: a2 → ¬ withOptsLit <:+: b2 →
      (∃ c, a2.getLast? = some c ∧ c ∉ callPat optsVarLit) →
      optScan (P ++ optLine a1 b1 :: optLine a2 b2 :: S) 0 k u
          (P ++ optLine a1 b1 :: optLine a2 b2 :: S) =
        (P ++ keyGenLines k ((optLine a1 b1).takeWhile isPySpace).length ::
            optLineDone k a1 b1 ::
            keyGenLines (k + 1) ((optLine a2 b2).takeWhile isPySpace).length ::
            optLineDone (k + 1) a2 b2 :: S, true, k + 2))
    ∧ (∀ k ind : Nat, fromSeedLit <:+: keyGenLines k ind) := by
  refine ⟨?_, ?_, ?_, fromSeed_infix_keyGenLines⟩
  · intro P Q S w a b k u hP hw hseed hQ hS hfar ha hb hlast
    rw [cons_middle_assoc P Q (optLine a b :: S) w,
      cons_middle_assoc P Q
        (keyGenLines k ((optLine a b).takeWhile isPySpace).length ::
          optLineDone k a b :: S) w]
    exact optScan_far_seed hP hw hQ hS hfar ha hb hlast
  · intro P Q S w a b k u hP hw hseed hQ hS hnear
    rw [cons_middle_assoc P Q (optLine a b :: S) w]
    have hPQ : ∀ l ∈ P ++ w :: Q, isSub withOptsLit l = false := by
      intro l hl
      rcases List.mem_append.mp hl with h | h
      · exact hP l h
      · rcases List.mem_cons.mp h with rfl | h2
        · exact hw
        · exact hQ l h2
    exact optScan_site_skipped hPQ hS
      (lines_getElem?_mid (P := P) (x := w)) hseed
      (by simp only [List.length_append, List.length_cons]; omega)
  · intro P S a1 b1 a2 b2 k u hP hS ha1 hb1 hl1 hs1a hs1b ha2 hb2 hl2
    exact optScan_two_sites hP hS ha1 hb1 hl1 hs1a hs1b ha2 hb2 hl2

/-- Closed instance of C9: the seed line six lines above does not suppress the
rewrite, the seed line five lines above does, two adjacent sites are both
rewritten, and a key-generation insertion contains the seed marker. -/
theorem claim_C9_witness :
    (optScan ([] ++ c7Seed :: c9Q5 ++ optLine c7A c7B :: []) 0 1 false
        ([] ++ c7Seed :: c9Q5 ++ optLine c7A c7B :: []) =
      ([] ++ c7Seed :: c9Q5 ++
        keyGenLines 1 ((optLine c7A c7B).takeWhile isPySpace).length ::
        optLineDone 1 c7A c7B :: [], true, 2))
    ∧ (optScan ([] ++ c7Seed :: c9Q4 ++ optLine c7A c7B :: []) 0 1 false
        ([] ++ c7Seed :: c9Q4 ++ optLine c7A c7B :: []) =
      ([] ++ c7Seed :: c9Q4 ++ optLine c7A c7B :: [], false, 1))
    ∧ (optScan ([] ++ optLine c2A1 c2B1 :: optLine c2A2 c2B2 :: []) 0 1 false
        ([] ++ optLine c2A1 c2B1 :: optLine c2A2 c2B2 :: []) =
      ([] ++ keyGenLines 1 ((optLine c2A1 c2B1).takeWhile isPySpace).length ::
          optLineDone 1 c2A1 c2B1 ::
          keyGenLines 2 ((optLine c2A2 c2B2).takeWhile isPySpace).length ::
          optLineDone 2 c2A2 c2B2 :: [], true, 3))
    ∧ fromSeedLit <:+: keyGenLines 7 2 :=
  ⟨claim_C9.1 [] c9Q5 [] c7Seed c7A c7B 1 false (by decide) (by decide)
      (isSub_eq_true.mp (by decide)) (by decide) (by decide) (by decide)
      (isSub_eq_false.mp (by decide)) (isSub_eq_false.mp (by decide))
      ⟨' ', by decide⟩,
   claim_C9.2.1 [] c9Q4 [] c7Seed c7A c7B 1 false (by decide) (by decide)
      (isSub_eq_true.mp (by decide)) (by decide) (by decide) (by decide),
   claim_C9.2.2.1 [] [] c2A1 c2B1 c2A2 c2B2 1 false (by decide) (by decide)
      (isSub_eq_false.mp (by decide)) (isSub_eq_false.mp (by decide))
      ⟨' ', by decide⟩
      (isSub_eq_false.mp (by decide)) (isSub_eq_false.mp (by decide))
      (isSub_eq_false.mp (by decide)) (isSub_eq_false.mp (by decide))
      ⟨' ', by decide⟩,
   claim_C9.2.2.2 7 2⟩

/-- C10: a line that contains `Gun::with_options(` but on which the pattern
`Gun::with_options(\w+)` finds no match — the argument is not a single bare
identifier — passes through the options scan untouched: the line list, the
updated flag and the key counter are all returned unchanged. -/
theorem claim_C10 (P S : List (List Char)) (l : List Char) (k : Nat) (u : Bool)
    (hP : ∀ x ∈ P, isSub withOptsLit x = false)
    (hS : ∀ x ∈ S, isSub withOptsLit x = false)
    (hcall : isSub withOptsLit l = true)
    (hsearch : searchWithOptsVar l = none) :
    optScan (P ++ l :: S) 0 k u (P ++ l :: S) = (P ++ l :: S, u, k) :=
  optScan_line_nomatch hP hS hcall hsearch

/-- Closed instance of C10 on a call whose argument is `make_options()`. -/
theorem claim_C10_witness :
    optScan (c10P ++ c10L :: c10S) 0 1 false (c10P ++ c10L :: c10S) =
      (c10P ++ c10L :: c10S, false, 1) :=
  claim_C10 c10P c10S c10L 1 false (by decide) (by decide) (by decide) (by decide)

end UpdateExamples
